import Mathlib

/-!
Verification of the forge graph runtime (Rust) against its specification.

Each Rust module relevant to the claims is shallowly embedded as Lean
definitions: pure functions become Lean functions, mutation becomes explicit
state passing, machine integers become Nat (all quantities involved are small
counters and byte sizes), fallible code returns Except, and external
collaborators (serde serialization, attachment stores, uuid/clock sources)
become explicit function parameters.

Strings handled by the permission pattern matcher are modelled as lists of
characters (the code processes them bytewise/characterwise).

Where a module of the repository is referenced by the code under scrutiny but
is absent from the source tree (error.rs, graph.rs, constants.rs), the
corresponding definition carries a doc comment starting with
"Modelled from the spec:".
-/

namespace Forge

/-- JSON values as used for serde_json::Value payloads.  Numbers are modelled
as integers: every number handled by the claims under study is an integer
(sequence numbers, sizes, versions). -/
inductive Json where
  | null : Json
  | bool (b : Bool) : Json
  | num (n : Int) : Json
  | str (s : String) : Json
  | arr (xs : List Json) : Json
  | obj (fields : List (String × Json)) : Json

/-- Lookup of a field in a JSON object map (serde_json maps hold
at most one entry per key). -/
def Json.lookup (fields : List (String × Json)) (key : String) : Option Json :=
  match fields.find? (fun f => f.1 == key) with
  | some f => some f.2
  | none => none

/-- serde_json::Value::as_u64: the value as a nonnegative integer fitting u64. -/
def Json.asU64 : Json → Option Nat
  | .num n => if 0 ≤ n ∧ n < (2:Int)^64 then some n.toNat else none
  | _ => none

/-! ## Permission module (src/src/runtime/permission.rs)

Patterns and permissions are lists of characters. HashSet String is modelled
as a list of its (distinct) members; theorems that depend on set semantics
quantify over permutations of those lists, mirroring the arbitrary iteration
order of a hash set. -/

/-- Permission strings and patterns, as character lists. -/
abbrev Pat := List Char

/-- Permission decision outcome (permission.rs PermissionDecision). -/
inductive PermissionDecision where
  | allow
  | ask
  | deny
deriving DecidableEq, Repr

/-- Strip a single trailing star from a pattern
(str::strip_suffix applied to "*" in pattern_match_score). -/
def stripSuffixStar : Pat → Option Pat
  | [] => none
  | [c] => if c = '*' then some [] else none
  | c :: rest => (stripSuffixStar rest).map (fun pre => c :: pre)

/-- pattern_match_score (permission.rs 190-204): full wildcard scores (0,0);
a trailing-star pattern whose stem starts the permission scores
(1, stem length); an exact match scores (2, pattern length). -/
def patternMatchScore (pattern permission : Pat) : Option (Nat × Nat) :=
  if pattern = ['*'] then some (0, 0)
  else
    match stripSuffixStar pattern with
    | some pre => if pre.isPrefixOf permission then some (1, pre.length) else none
    | none => if permission = pattern then some (2, pattern.length) else none

/-- matches_pattern (permission.rs 166-168). -/
def matchesPattern (pattern permission : Pat) : Bool :=
  (patternMatchScore pattern permission).isSome

/-- Strict lexicographic greater-than on scores, matching the derived Ord of
the Rust tuple (u8, usize) used by best_matching_pattern. -/
def scoreGtB (a b : Nat × Nat) : Bool :=
  decide (b.1 < a.1) || ((a.1 == b.1) && decide (b.2 < a.2))

/-- Lexicographic less-or-equal on scores (the complement of scoreGtB),
used to state maximality. -/
def scoreLeP (a b : Nat × Nat) : Prop :=
  a.1 < b.1 ∨ (a.1 = b.1 ∧ a.2 ≤ b.2)

instance (a b : Nat × Nat) : Decidable (scoreLeP a b) := by
  unfold scoreLeP; infer_instance

/-- One iteration of the best_matching_pattern loop body (permission.rs
176-186): replace the current best when there is none yet or when the new
score strictly exceeds it. -/
def bestStep (pat : Pat) (score : Nat × Nat) (best : Option (Pat × Nat × Nat)) :
    Option (Pat × Nat × Nat) :=
  match best with
  | none => some (pat, score)
  | some (qb, bs) => if scoreGtB score bs then some (pat, score) else some (qb, bs)

/-- The accumulator loop of best_matching_pattern (permission.rs 170-188):
scan the patterns, keeping the first candidate whose score strictly exceeds
the current best. -/
def bestLoop (permission : Pat) : List Pat → Option (Pat × Nat × Nat) → Option (Pat × Nat × Nat)
  | [], best => best
  | pat :: rest, best =>
    match patternMatchScore pat permission with
    | none => bestLoop permission rest best
    | some score => bestLoop permission rest (bestStep pat score best)

/-- best_matching_pattern (permission.rs 170-188). -/
def bestMatchingPattern (patterns : List Pat) (permission : Pat) : Option Pat :=
  (bestLoop permission patterns none).map (fun b => b.1)

/-- Permission rule with ordered pattern matching (permission.rs PermissionRule). -/
structure PermissionRule where
  action : PermissionDecision
  patterns : List Pat
deriving DecidableEq, Repr

/-- Permission policy that evaluates rules in order (permission.rs PermissionPolicy). -/
structure PermissionPolicy where
  rules : List PermissionRule
deriving DecidableEq, Repr

/-- The for loop of PermissionPolicy::decide (permission.rs 40-51): the first
rule with a matching pattern decides; default Allow. -/
def policyDecideLoop (permission : Pat) : List PermissionRule → PermissionDecision
  | [] => .allow
  | rule :: rest =>
    if rule.patterns.any (fun pattern => matchesPattern pattern permission) then rule.action
    else policyDecideLoop permission rest

/-- PermissionPolicy::decide (permission.rs 40-51). -/
def PermissionPolicy.decide (policy : PermissionPolicy) (permission : Pat) : PermissionDecision :=
  policyDecideLoop permission policy.rules

/-- Session override sets (permission.rs PermissionOverrides).  Each HashSet
of pattern strings is modelled as the list of its distinct members. -/
structure PermissionOverrides where
  once : List Pat
  always : List Pat
  reject : List Pat
deriving DecidableEq, Repr

/-- PermissionOverrides::decide (permission.rs 73-93): reject, then always,
then a consuming once lookup; the chosen once entry is removed from the set. -/
def PermissionOverrides.decide (ov : PermissionOverrides) (permission : Pat) :
    Option PermissionDecision × PermissionOverrides :=
  if ov.reject.any (fun pattern => matchesPattern pattern permission) then
    (some .deny, ov)
  else if ov.always.any (fun pattern => matchesPattern pattern permission) then
    (some .allow, ov)
  else
    match bestMatchingPattern ov.once permission with
    | some pattern => (some .allow, { ov with once := ov.once.erase pattern })
    | none => (none, ov)

/-- Permission replies (event.rs PermissionReply). -/
inductive PermissionReply where
  | once
  | always
  | reject
deriving DecidableEq, Repr

/-- HashSet::insert on the list model: add the element if absent. -/
def setInsert (l : List Pat) (x : Pat) : List Pat :=
  if l.contains x then l else x :: l

/-- PermissionOverrides::apply_reply (permission.rs 95-107). -/
def PermissionOverrides.applyReply (ov : PermissionOverrides) (permission : Pat)
    (reply : PermissionReply) : PermissionOverrides :=
  match reply with
  | .once => { ov with once := setInsert ov.once permission }
  | .always => { ov with always := setInsert ov.always permission }
  | .reject => { ov with reject := setInsert ov.reject permission }

/-- Mutable permission session (permission.rs PermissionSession); the mutex
around the overrides becomes explicit state passing. -/
structure PermissionSession where
  base : PermissionPolicy
  overrides : PermissionOverrides
deriving DecidableEq, Repr

/-- PermissionSession::new (permission.rs 117-122). -/
def PermissionSession.new (base : PermissionPolicy) : PermissionSession :=
  { base := base, overrides := { once := [], always := [], reject := [] } }

/-- PermissionGate::decide for PermissionSession (permission.rs 156-164):
consult the overrides first, else fall back to the base policy. -/
def PermissionSession.decide (s : PermissionSession) (permission : Pat) :
    PermissionDecision × PermissionSession :=
  match s.overrides.decide permission with
  | (some decision, ov) => (decision, { s with overrides := ov })
  | (none, ov) => (s.base.decide permission, { s with overrides := ov })

/-- Serializable snapshot of runtime permission replies
(permission.rs PermissionSnapshot). -/
structure PermissionSnapshot where
  once : List Pat
  always : List Pat
  reject : List Pat
deriving DecidableEq, Repr

/-- PermissionSession::snapshot (permission.rs 124-131).  The Rust code
enumerates each HashSet into a Vec in arbitrary hash order; the round-trip
theorems therefore quantify over permutations of these lists. -/
def PermissionSession.snapshot (s : PermissionSession) : PermissionSnapshot :=
  { once := s.overrides.once, always := s.overrides.always, reject := s.overrides.reject }

/-- PermissionSession::restore (permission.rs 133-138): replace the override
sets with the snapshot contents. -/
def PermissionSession.restore (s : PermissionSession) (snap : PermissionSnapshot) :
    PermissionSession :=
  { s with overrides := { once := snap.once, always := snap.always, reject := snap.reject } }

/-- Decisions of a session over a sequence of decide calls, threading the
override state. -/
def decideSeq (s : PermissionSession) : List Pat → List PermissionDecision
  | [] => []
  | p :: ps => (s.decide p).1 :: decideSeq (s.decide p).2 ps

/-! ### Facts about pattern scoring -/

theorem stripSuffixStar_eq_some (q pre : Pat) :
    stripSuffixStar q = some pre ↔ q = pre ++ ['*'] := by
  induction q generalizing pre with
  | nil => simp [stripSuffixStar]
  | cons c rest ih =>
    cases rest with
    | nil =>
      by_cases hc : c = '*'
      · subst hc
        constructor
        · intro h
          cases pre with
          | nil => rfl
          | cons d pre2 => simp [stripSuffixStar] at h
        · intro h
          cases pre with
          | nil => simp [stripSuffixStar]
          | cons d pre2 =>
            have hl := congrArg List.length h
            simp at hl
      · constructor
        · intro h
          exfalso
          simp [stripSuffixStar, hc] at h
        · intro h
          exfalso
          cases pre with
          | nil =>
            simp at h
            exact hc h
          | cons d pre2 =>
            have hl := congrArg List.length h
            simp at hl
    | cons c2 rest2 =>
      simp only [stripSuffixStar, Option.map_eq_some']
      constructor
      · rintro ⟨a, ha, rfl⟩
        simp [(ih a).mp ha]
      · intro h
        cases pre with
        | nil =>
          have hl := congrArg List.length h
          simp at hl
        | cons d pre2 =>
          simp only [List.cons_append, List.cons.injEq] at h
          exact ⟨pre2, (ih pre2).mpr h.2, by rw [h.1]⟩

/-- Classification of a successful score by its class component. -/
theorem patternMatchScore_cases (q p : Pat) (c n : Nat)
    (h : patternMatchScore q p = some (c, n)) :
    (c = 0 ∧ q = ['*'] ∧ n = 0) ∨
    (c = 1 ∧ ∃ pre, q = pre ++ ['*'] ∧ pre.isPrefixOf p = true ∧ n = pre.length) ∨
    (c = 2 ∧ q = p ∧ n = p.length) := by
  unfold patternMatchScore at h
  by_cases hq : q = ['*']
  · rw [if_pos hq] at h
    simp only [Option.some.injEq, Prod.mk.injEq] at h
    exact Or.inl ⟨h.1.symm, hq, h.2.symm⟩
  · rw [if_neg hq] at h
    cases hstrip : stripSuffixStar q with
    | some pre =>
      rw [hstrip] at h
      simp only at h
      by_cases hp : pre.isPrefixOf p = true
      · rw [if_pos hp] at h
        simp only [Option.some.injEq, Prod.mk.injEq] at h
        exact Or.inr (Or.inl ⟨h.1.symm, pre, (stripSuffixStar_eq_some q pre).mp hstrip,
          hp, h.2.symm⟩)
      · rw [if_neg hp] at h; cases h
    | none =>
      rw [hstrip] at h
      simp only at h
      by_cases hp : p = q
      · rw [if_pos hp] at h
        simp only [Option.some.injEq, Prod.mk.injEq] at h
        exact Or.inr (Or.inr ⟨h.1.symm, hp.symm, by rw [← h.2, hp]⟩)
      · rw [if_neg hp] at h; cases h

/-- No two distinct patterns can match the same permission with the same
score: the class and length pin the pattern down. -/
theorem patternMatchScore_inj (q q2 p : Pat) (s : Nat × Nat)
    (h1 : patternMatchScore q p = some s) (h2 : patternMatchScore q2 p = some s) :
    q = q2 := by
  obtain ⟨c, n⟩ := s
  rcases patternMatchScore_cases q p c n h1 with ⟨hc, hq, hn⟩ | ⟨hc, pre, hq, hpre, hn⟩ | ⟨hc, hq, hn⟩ <;>
    rcases patternMatchScore_cases q2 p c n h2 with ⟨hc2, hq2, hn2⟩ | ⟨hc2, pre2, hq2, hpre2, hn2⟩ | ⟨hc2, hq2, hn2⟩ <;>
      try omega
  · rw [hq, hq2]
  · have hp1 : pre <+: p := List.isPrefixOf_iff_prefix.mp hpre
    have hp2 : pre2 <+: p := List.isPrefixOf_iff_prefix.mp hpre2
    have hlen : pre.length = pre2.length := by omega
    have hpre_eq : pre = pre2 := by
      have e1 := List.prefix_iff_eq_take.mp hp1
      have e2 := List.prefix_iff_eq_take.mp hp2
      rw [e1, e2, hlen]
    rw [hq, hq2, hpre_eq]
  · rw [hq, hq2]

theorem scoreGtB_iff (a b : Nat × Nat) : scoreGtB a b = true ↔ ¬ scoreLeP a b := by
  obtain ⟨a1, a2⟩ := a; obtain ⟨b1, b2⟩ := b
  simp only [scoreGtB, scoreLeP, Bool.or_eq_true, Bool.and_eq_true, decide_eq_true_eq,
    beq_iff_eq]
  omega

theorem scoreLeP_refl (a : Nat × Nat) : scoreLeP a a := by
  simp [scoreLeP]

theorem scoreLeP_trans {a b c : Nat × Nat} (h1 : scoreLeP a b) (h2 : scoreLeP b c) :
    scoreLeP a c := by
  obtain ⟨a1, a2⟩ := a; obtain ⟨b1, b2⟩ := b; obtain ⟨c1, c2⟩ := c
  simp only [scoreLeP] at *
  omega

theorem scoreLeP_antisymm {a b : Nat × Nat} (h1 : scoreLeP a b) (h2 : scoreLeP b a) :
    a = b := by
  obtain ⟨a1, a2⟩ := a; obtain ⟨b1, b2⟩ := b
  simp only [scoreLeP] at *
  have h3 : a1 = b1 ∧ a2 = b2 := by omega
  simp [h3.1, h3.2]

theorem scoreLeP_total (a b : Nat × Nat) : scoreLeP a b ∨ scoreLeP b a := by
  obtain ⟨a1, a2⟩ := a; obtain ⟨b1, b2⟩ := b
  simp only [scoreLeP]
  omega

theorem scoreGtB_true_le {a b : Nat × Nat} (h : scoreGtB a b = true) : scoreLeP b a :=
  (scoreLeP_total a b).resolve_left ((scoreGtB_iff a b).mp h)

theorem scoreGtB_false_le {a b : Nat × Nat} (h : scoreGtB a b = false) : scoreLeP a b := by
  by_contra hcon
  rw [← scoreGtB_iff] at hcon
  rw [h] at hcon
  cases hcon

/-! ### Facts about the best-match loop -/

theorem bestStep_ne_none (pat : Pat) (score : Nat × Nat) (best : Option (Pat × Nat × Nat)) :
    bestStep pat score best ≠ none := by
  cases best with
  | none => simp [bestStep]
  | some b =>
    obtain ⟨qb, sb⟩ := b
    by_cases hgt : scoreGtB score sb = true <;> simp [bestStep, hgt]

theorem bestStep_score_ok (p pat : Pat) (score : Nat × Nat) (best : Option (Pat × Nat × Nat))
    (hpat : patternMatchScore pat p = some score)
    (hbest : ∀ qa sa, best = some (qa, sa) → patternMatchScore qa p = some sa) :
    ∀ qa sa, bestStep pat score best = some (qa, sa) → patternMatchScore qa p = some sa := by
  intro qa sa h
  cases best with
  | none =>
    simp only [bestStep, Option.some.injEq, Prod.mk.injEq] at h
    rw [← h.1, ← h.2]
    exact hpat
  | some b =>
    obtain ⟨qb, sb⟩ := b
    simp only [bestStep] at h
    by_cases hgt : scoreGtB score sb = true
    · rw [if_pos hgt] at h
      simp only [Option.some.injEq, Prod.mk.injEq] at h
      rw [← h.1, ← h.2]
      exact hpat
    · rw [if_neg hgt] at h
      simp only [Option.some.injEq, Prod.mk.injEq] at h
      rw [← h.1, ← h.2]
      exact hbest qb sb rfl

theorem bestStep_ge (pat : Pat) (score : Nat × Nat) (best : Option (Pat × Nat × Nat))
    (qb : Pat) (sb : Nat × Nat) (h : bestStep pat score best = some (qb, sb)) :
    scoreLeP score sb ∧ ∀ qa sa, best = some (qa, sa) → scoreLeP sa sb := by
  cases best with
  | none =>
    simp only [bestStep, Option.some.injEq, Prod.mk.injEq] at h
    constructor
    · rw [← h.2]; exact scoreLeP_refl score
    · intro qa sa hx; simp at hx
  | some b =>
    obtain ⟨qa0, sa0⟩ := b
    simp only [bestStep] at h
    by_cases hgt : scoreGtB score sa0 = true
    · rw [if_pos hgt] at h
      simp only [Option.some.injEq, Prod.mk.injEq] at h
      constructor
      · rw [← h.2]; exact scoreLeP_refl score
      · intro qa sa hx
        simp only [Option.some.injEq, Prod.mk.injEq] at hx
        rw [← hx.2, ← h.2]
        exact scoreGtB_true_le hgt
    · rw [if_neg hgt] at h
      simp only [Option.some.injEq, Prod.mk.injEq] at h
      constructor
      · rw [← h.2]
        exact scoreGtB_false_le (by simpa using hgt)
      · intro qa sa hx
        simp only [Option.some.injEq, Prod.mk.injEq] at hx
        rw [← hx.2, ← h.2]
        exact scoreLeP_refl sa0

theorem bestStep_mem (pat : Pat) (score : Nat × Nat) (best : Option (Pat × Nat × Nat))
    (qb : Pat) (sb : Nat × Nat) (h : bestStep pat score best = some (qb, sb)) :
    (qb = pat ∧ sb = score) ∨ best = some (qb, sb) := by
  cases best with
  | none =>
    simp only [bestStep, Option.some.injEq, Prod.mk.injEq] at h
    exact Or.inl ⟨h.1.symm, h.2.symm⟩
  | some b =>
    obtain ⟨qa0, sa0⟩ := b
    simp only [bestStep] at h
    by_cases hgt : scoreGtB score sa0 = true
    · rw [if_pos hgt] at h
      simp only [Option.some.injEq, Prod.mk.injEq] at h
      exact Or.inl ⟨h.1.symm, h.2.symm⟩
    · rw [if_neg hgt] at h
      exact Or.inr h

theorem bestLoop_none_iff (p : Pat) (l : List Pat) (acc : Option (Pat × Nat × Nat)) :
    bestLoop p l acc = none ↔ acc = none ∧ ∀ q ∈ l, patternMatchScore q p = none := by
  induction l generalizing acc with
  | nil => simp [bestLoop]
  | cons pat rest ih =>
    cases hsc : patternMatchScore pat p with
    | none =>
      simp only [bestLoop, hsc, ih]
      constructor
      · rintro ⟨h1, h2⟩
        refine ⟨h1, ?_⟩
        intro q hq
        rcases List.mem_cons.mp hq with rfl | hq2
        · exact hsc
        · exact h2 q hq2
      · rintro ⟨h1, h2⟩
        exact ⟨h1, fun q hq => h2 q (List.mem_cons_of_mem _ hq)⟩
    | some sc =>
      simp only [bestLoop, hsc, ih]
      constructor
      · rintro ⟨h1, -⟩
        exact absurd h1 (bestStep_ne_none pat sc acc)
      · rintro ⟨-, h2⟩
        exact absurd (h2 pat (List.mem_cons_self ..)) (by simp [hsc])

theorem bestLoop_spec (p : Pat) (l : List Pat) (acc : Option (Pat × Nat × Nat))
    (hacc : ∀ qa sa, acc = some (qa, sa) → patternMatchScore qa p = some sa) :
    ∀ q s, bestLoop p l acc = some (q, s) →
      patternMatchScore q p = some s ∧ (acc = some (q, s) ∨ q ∈ l) := by
  induction l generalizing acc with
  | nil =>
    intro q s h
    simp only [bestLoop] at h
    exact ⟨hacc q s h, Or.inl h⟩
  | cons pat rest ih =>
    intro q s h
    cases hsc : patternMatchScore pat p with
    | none =>
      simp only [bestLoop, hsc] at h
      rcases ih acc hacc q s h with ⟨h1, h2 | h2⟩
      · exact ⟨h1, Or.inl h2⟩
      · exact ⟨h1, Or.inr (List.mem_cons_of_mem _ h2)⟩
    | some sc =>
      simp only [bestLoop, hsc] at h
      rcases ih (bestStep pat sc acc) (bestStep_score_ok p pat sc acc hsc hacc) q s h with
        ⟨h1, h2 | h2⟩
      · refine ⟨h1, ?_⟩
        rcases bestStep_mem pat sc acc q s h2 with ⟨rfl, -⟩ | h3
        · exact Or.inr (List.mem_cons_self ..)
        · exact Or.inl h3
      · exact ⟨h1, Or.inr (List.mem_cons_of_mem _ h2)⟩

theorem bestLoop_mono (p : Pat) (l : List Pat) (qa : Pat) (sa : Nat × Nat) (q : Pat)
    (s : Nat × Nat) (h : bestLoop p l (some (qa, sa)) = some (q, s)) : scoreLeP sa s := by
  induction l generalizing qa sa with
  | nil =>
    simp only [bestLoop, Option.some.injEq, Prod.mk.injEq] at h
    rw [h.2]
    exact scoreLeP_refl s
  | cons pat rest ih =>
    cases hsc : patternMatchScore pat p with
    | none =>
      simp only [bestLoop, hsc] at h
      exact ih qa sa h
    | some sc =>
      simp only [bestLoop, hsc] at h
      cases hstep : bestStep pat sc (some (qa, sa)) with
      | none => exact absurd hstep (bestStep_ne_none _ _ _)
      | some b =>
        obtain ⟨qb, sb⟩ := b
        rw [hstep] at h
        have hge := (bestStep_ge pat sc (some (qa, sa)) qb sb hstep).2 qa sa rfl
        exact scoreLeP_trans hge (ih qb sb h)

theorem bestLoop_max (p : Pat) (l : List Pat) (acc : Option (Pat × Nat × Nat))
    (hacc : ∀ qa sa, acc = some (qa, sa) → patternMatchScore qa p = some sa) :
    ∀ q s, bestLoop p l acc = some (q, s) →
      ∀ r ∈ l, ∀ sr, patternMatchScore r p = some sr → scoreLeP sr s := by
  induction l generalizing acc with
  | nil =>
    intro q s h r hr
    cases hr
  | cons pat rest ih =>
    intro q s h r hr sr hsr
    cases hsc : patternMatchScore pat p with
    | none =>
      simp only [bestLoop, hsc] at h
      rcases List.mem_cons.mp hr with rfl | hr2
      · rw [hsc] at hsr; cases hsr
      · exact ih acc hacc q s h r hr2 sr hsr
    | some sc =>
      simp only [bestLoop, hsc] at h
      have hok := bestStep_score_ok p pat sc acc hsc hacc
      rcases List.mem_cons.mp hr with rfl | hr2
      · rw [hsc] at hsr
        have hscsr : sc = sr := by
          injection hsr
        subst hscsr
        cases hstep : bestStep r sc acc with
        | none => exact absurd hstep (bestStep_ne_none _ _ _)
        | some b =>
          obtain ⟨qb, sb⟩ := b
          rw [hstep] at h
          have h1 := (bestStep_ge r sc acc qb sb hstep).1
          exact scoreLeP_trans h1 (bestLoop_mono p rest qb sb q s h)
      · exact ih (bestStep pat sc acc) hok q s h r hr2 sr hsr

/-! ### Characterization of best_matching_pattern -/

theorem matchesPattern_false_iff (q p : Pat) :
    matchesPattern q p = false ↔ patternMatchScore q p = none := by
  unfold matchesPattern
  cases patternMatchScore q p <;> simp

theorem bestMatchingPattern_none_iff (l : List Pat) (p : Pat) :
    bestMatchingPattern l p = none ↔ ∀ q ∈ l, matchesPattern q p = false := by
  unfold bestMatchingPattern
  rw [Option.map_eq_none', bestLoop_none_iff]
  simp only [matchesPattern_false_iff]
  simp

theorem bestMatchingPattern_spec (l : List Pat) (p : Pat) (q : Pat)
    (h : bestMatchingPattern l p = some q) :
    ∃ sq, patternMatchScore q p = some sq ∧ q ∈ l ∧
      ∀ r ∈ l, ∀ sr, patternMatchScore r p = some sr → scoreLeP sr sq := by
  unfold bestMatchingPattern at h
  rw [Option.map_eq_some'] at h
  obtain ⟨⟨q2, s⟩, hb, hq⟩ := h
  cases hq
  obtain ⟨h1, h2⟩ := bestLoop_spec p l none (by simp) q2 s hb
  refine ⟨s, h1, ?_, bestLoop_max p l none (by simp) q2 s hb⟩
  rcases h2 with h2 | h2
  · cases h2
  · exact h2

/-- The best match depends only on the membership of the pattern set,
mirroring the fact that hash-set iteration order cannot affect it. -/
theorem bestMatchingPattern_memEq (l l2 : List Pat) (p : Pat)
    (hmem : ∀ x, x ∈ l ↔ x ∈ l2) :
    bestMatchingPattern l p = bestMatchingPattern l2 p := by
  cases h1 : bestMatchingPattern l p with
  | none =>
    cases h2 : bestMatchingPattern l2 p with
    | none => rfl
    | some q =>
      obtain ⟨sq, hs, hm, -⟩ := bestMatchingPattern_spec l2 p q h2
      have h3 := (bestMatchingPattern_none_iff l p).mp h1 q ((hmem q).mpr hm)
      rw [matchesPattern_false_iff, hs] at h3
      cases h3
  | some q =>
    obtain ⟨sq, hs, hm, hmax⟩ := bestMatchingPattern_spec l p q h1
    cases h2 : bestMatchingPattern l2 p with
    | none =>
      have h3 := (bestMatchingPattern_none_iff l2 p).mp h2 q ((hmem q).mp hm)
      rw [matchesPattern_false_iff, hs] at h3
      cases h3
    | some q2 =>
      obtain ⟨sq2, hs2, hm2, hmax2⟩ := bestMatchingPattern_spec l2 p q2 h2
      have le1 : scoreLeP sq2 sq := hmax q2 ((hmem q2).mpr hm2) sq2 hs2
      have le2 : scoreLeP sq sq2 := hmax2 q ((hmem q).mp hm) sq hs
      have heq : sq = sq2 := scoreLeP_antisymm le2 le1
      rw [heq] at hs
      rw [patternMatchScore_inj q q2 p sq2 hs hs2]

/-! ### Session-level lemmas -/

theorem sessionDecide_eq (s : PermissionSession) (p : Pat) :
    s.decide p = ((s.overrides.decide p).1.getD (s.base.decide p),
      { s with overrides := (s.overrides.decide p).2 }) := by
  unfold PermissionSession.decide
  cases h : s.overrides.decide p with
  | mk fst snd => cases fst <;> simp

theorem any_memEq {α : Type} (l l2 : List α) (f : α → Bool)
    (hmem : ∀ x, x ∈ l ↔ x ∈ l2) : l.any f = l2.any f := by
  cases hb : l2.any f with
  | true =>
    obtain ⟨x, hx, hf⟩ := List.any_eq_true.mp hb
    exact List.any_eq_true.mpr ⟨x, (hmem x).mpr hx, hf⟩
  | false =>
    cases hb2 : l.any f with
    | false => rfl
    | true =>
      obtain ⟨x, hx, hf⟩ := List.any_eq_true.mp hb2
      have := List.any_eq_true.mpr ⟨x, (hmem x).mp hx, hf⟩
      rw [hb] at this
      cases this

/-- The two lawful boolean-equality instances on character lists give the
same erase function. -/
theorem erase_beq_eq (l : List Pat) (a : Pat) :
    l.erase a = @List.erase Pat instBEqOfDecidableEq l a := by
  induction l with
  | nil => rfl
  | cons x xs ih =>
    by_cases hx : x = a
    · simp [List.erase_cons, hx]
    · simp [List.erase_cons, hx, ih]

/-- Pointwise permutation of the three override sets: the relation induced by
reading a HashSet out in an arbitrary order. -/
def ovPerm (a b : PermissionOverrides) : Prop :=
  a.once.Perm b.once ∧ a.always.Perm b.always ∧ a.reject.Perm b.reject

theorem overridesDecide_perm (a b : PermissionOverrides) (p : Pat) (h : ovPerm a b) :
    (a.decide p).1 = (b.decide p).1 ∧ ovPerm (a.decide p).2 (b.decide p).2 := by
  obtain ⟨h1, h2, h3⟩ := h
  have hrej : a.reject.any (fun pat => matchesPattern pat p)
      = b.reject.any (fun pat => matchesPattern pat p) :=
    any_memEq _ _ _ (fun x => h3.mem_iff)
  have halw : a.always.any (fun pat => matchesPattern pat p)
      = b.always.any (fun pat => matchesPattern pat p) :=
    any_memEq _ _ _ (fun x => h2.mem_iff)
  have hbest : bestMatchingPattern a.once p = bestMatchingPattern b.once p :=
    bestMatchingPattern_memEq _ _ _ (fun x => h1.mem_iff)
  unfold PermissionOverrides.decide
  rw [← hrej, ← halw, ← hbest]
  by_cases hr : a.reject.any (fun pat => matchesPattern pat p) = true
  · simp only [if_pos hr]
    exact ⟨by simp, h1, h2, h3⟩
  · simp only [if_neg hr]
    by_cases ha : a.always.any (fun pat => matchesPattern pat p) = true
    · simp only [if_pos ha]
      exact ⟨by simp, h1, h2, h3⟩
    · simp only [if_neg ha]
      cases hba : bestMatchingPattern a.once p with
      | none =>
        simp only [hba]
        exact ⟨by simp, h1, h2, h3⟩
      | some q =>
        simp only [hba]
        refine ⟨by simp, ?_, h2, h3⟩
        show (a.once.erase q).Perm (b.once.erase q)
        rw [erase_beq_eq a.once q, erase_beq_eq b.once q]
        exact h1.erase q

theorem sessionDecide_perm (s1 s2 : PermissionSession) (hbase : s1.base = s2.base)
    (hov : ovPerm s1.overrides s2.overrides) (p : Pat) :
    (s1.decide p).1 = (s2.decide p).1 ∧
    (s1.decide p).2.base = (s2.decide p).2.base ∧
    ovPerm (s1.decide p).2.overrides (s2.decide p).2.overrides := by
  obtain ⟨hd, hov2⟩ := overridesDecide_perm s1.overrides s2.overrides p hov
  rw [sessionDecide_eq, sessionDecide_eq]
  refine ⟨?_, hbase, hov2⟩
  rw [hd, hbase]

theorem decideSeq_perm (s1 s2 : PermissionSession) (hbase : s1.base = s2.base)
    (hov : ovPerm s1.overrides s2.overrides) (ps : List Pat) :
    decideSeq s1 ps = decideSeq s2 ps := by
  induction ps generalizing s1 s2 with
  | nil => rfl
  | cons p ps ih =>
    obtain ⟨hd, hb2, hov2⟩ := sessionDecide_perm s1 s2 hbase hov p
    simp only [decideSeq]
    rw [hd, ih (s1.decide p).2 (s2.decide p).2 hb2 hov2]

theorem policyDecideLoop_find (p : Pat) (rules : List PermissionRule) :
    policyDecideLoop p rules =
      ((rules.find? (fun rule =>
        rule.patterns.any (fun pat => matchesPattern pat p))).map
          (fun rule => rule.action)).getD .allow := by
  induction rules with
  | nil => rfl
  | cons rule rest ih =>
    by_cases hr : rule.patterns.any (fun pat => matchesPattern pat p) = true
    · simp [policyDecideLoop, hr, List.find?_cons_of_pos]
    · rw [List.find?_cons_of_neg _ (by simpa using hr)]
      simp only [policyDecideLoop, if_neg hr]
      exact ih

/-- C2: For every permission string p, every base policy B, and every sequence
of applied replies, PermissionSession::decide(p) returns Deny if any reject
override pattern matches p; otherwise Allow if any always override pattern
matches p; otherwise Allow if any once override pattern matches p, in which
case exactly the most specific matching once entry is consumed (patterns
scored wildcard < prefix-star < exact, ties broken by longer pattern) so it
cannot match again; otherwise the result of B.decide(p), which returns the
action of the first rule in order whose patterns match p, defaulting to
Allow. -/
theorem permission_precedence_spec (s : PermissionSession) (p : Pat) :
    (s.overrides.reject.any (fun pat => matchesPattern pat p) = true →
      s.decide p = (.deny, s)) ∧
    (s.overrides.reject.any (fun pat => matchesPattern pat p) = false →
      s.overrides.always.any (fun pat => matchesPattern pat p) = true →
      s.decide p = (.allow, s)) ∧
    (s.overrides.reject.any (fun pat => matchesPattern pat p) = false →
      s.overrides.always.any (fun pat => matchesPattern pat p) = false →
      s.overrides.once.any (fun pat => matchesPattern pat p) = true →
      ∃ q sq, q ∈ s.overrides.once ∧ patternMatchScore q p = some sq ∧
        (∀ r ∈ s.overrides.once, ∀ sr, patternMatchScore r p = some sr → scoreLeP sr sq) ∧
        s.decide p =
          (.allow, { s with overrides := { s.overrides with
            once := s.overrides.once.erase q } })) ∧
    (s.overrides.reject.any (fun pat => matchesPattern pat p) = false →
      s.overrides.always.any (fun pat => matchesPattern pat p) = false →
      s.overrides.once.any (fun pat => matchesPattern pat p) = false →
      s.decide p = (s.base.decide p, s)) ∧
    s.base.decide p =
      ((s.base.rules.find? (fun rule =>
        rule.patterns.any (fun pat => matchesPattern pat p))).map
          (fun rule => rule.action)).getD .allow := by
  refine ⟨?_, ?_, ?_, ?_, policyDecideLoop_find p s.base.rules⟩
  · intro hr
    rw [sessionDecide_eq]
    unfold PermissionOverrides.decide
    rw [if_pos hr]
    rfl
  · intro hr ha
    rw [sessionDecide_eq]
    unfold PermissionOverrides.decide
    rw [if_neg (by simp [hr]), if_pos ha]
    rfl
  · intro hr ha ho
    cases hbest : bestMatchingPattern s.overrides.once p with
    | none =>
      obtain ⟨x, hx, hf⟩ := List.any_eq_true.mp ho
      have hmx := (bestMatchingPattern_none_iff s.overrides.once p).mp hbest x hx
      rw [hf] at hmx
      cases hmx
    | some q =>
      obtain ⟨sq, hs, hm, hmax⟩ := bestMatchingPattern_spec s.overrides.once p q hbest
      refine ⟨q, sq, hm, hs, hmax, ?_⟩
      rw [sessionDecide_eq]
      unfold PermissionOverrides.decide
      rw [if_neg (by simp [hr]), if_neg (by simp [ha]), hbest]
      rfl
  · intro hr ha ho
    have hbest : bestMatchingPattern s.overrides.once p = none := by
      rw [bestMatchingPattern_none_iff]
      intro q hq
      cases hmq : matchesPattern q p with
      | false => rfl
      | true =>
        exfalso
        have hany : s.overrides.once.any (fun pat => matchesPattern pat p) = true :=
          List.any_eq_true.mpr ⟨q, hq, by exact hmq⟩
        rw [ho] at hany
        cases hany
    rw [sessionDecide_eq]
    unfold PermissionOverrides.decide
    rw [if_neg (by simp [hr]), if_neg (by simp [ha]), hbest]
    rfl

/-- Input used by the witness of the C2 theorem: a session whose overrides
hold one reject entry, one always entry and two once entries. -/
def c2Session : PermissionSession :=
  { base := { rules := [ { action := .ask, patterns := [['t', '*']] } ] },
    overrides :=
      { once := [['t', '*'], ['t', 'x']],
        always := [['t', 'y']],
        reject := [['t', 'z']] } }

theorem permission_precedence_spec_witness :
    c2Session.decide ['t', 'z'] = (.deny, c2Session) ∧
    (∃ q sq, q ∈ c2Session.overrides.once ∧ patternMatchScore q ['t', 'x'] = some sq ∧
      (∀ r ∈ c2Session.overrides.once, ∀ sr,
        patternMatchScore r ['t', 'x'] = some sr → scoreLeP sr sq) ∧
      c2Session.decide ['t', 'x'] =
        (.allow, { c2Session with overrides := { c2Session.overrides with
          once := c2Session.overrides.once.erase q } })) :=
  ⟨(permission_precedence_spec c2Session ['t', 'z']).1 (by decide),
    (permission_precedence_spec c2Session ['t', 'x']).2.2.1 (by decide) (by decide) (by decide)⟩

/-- C10: snapshot followed by restore is a round-trip on the override state:
restoring a fresh session over the same base policy from s.snapshot() (read
out of the hash sets in an arbitrary order, modelled by quantifying over
permutations) yields the same override sets and hence equal decisions for
every subsequent sequence of decide calls. -/
theorem snapshot_restore_roundtrip (base : PermissionPolicy) (s : PermissionSession)
    (hbase : s.base = base) (snap : PermissionSnapshot)
    (h1 : snap.once.Perm s.snapshot.once)
    (h2 : snap.always.Perm s.snapshot.always)
    (h3 : snap.reject.Perm s.snapshot.reject)
    (ps : List Pat) :
    ovPerm ((PermissionSession.new base).restore snap).overrides s.overrides ∧
    decideSeq ((PermissionSession.new base).restore snap) ps = decideSeq s ps := by
  have hov : ovPerm ((PermissionSession.new base).restore snap).overrides s.overrides := by
    exact ⟨h1, h2, h3⟩
  exact ⟨hov, decideSeq_perm _ _ (by simp [PermissionSession.new, PermissionSession.restore, hbase])
    hov ps⟩

/-- Session used by the witness of the C10 theorem. -/
def c10Session : PermissionSession :=
  { base := { rules := [ { action := .ask, patterns := [['t', '*']] } ] },
    overrides :=
      { once := [['t', 'a'], ['t', 'b']],
        always := [['t', 'c']],
        reject := [['t', 'd']] } }

/-- Snapshot of c10Session with the hash sets read out in a different order. -/
def c10Snap : PermissionSnapshot :=
  { once := [['t', 'b'], ['t', 'a']],
    always := [['t', 'c']],
    reject := [['t', 'd']] }

theorem snapshot_restore_roundtrip_witness :
    decideSeq ((PermissionSession.new c10Session.base).restore c10Snap)
        [['t', 'a'], ['t', 'a'], ['t', 'c'], ['t', 'd']] =
      decideSeq c10Session [['t', 'a'], ['t', 'a'], ['t', 'c'], ['t', 'd']] :=
  (snapshot_restore_roundtrip c10Session.base c10Session rfl c10Snap
    (by decide) (by decide) (by decide)
    [['t', 'a'], ['t', 'a'], ['t', 'c'], ['t', 'd']]).2

/-! ## Executor module (src/src/runtime/executor.rs)

The executor is generic over the user state type; GraphState becomes an
explicit record of operations, async node handlers become pure functions
returning Except, and the uuid/clock calls that mint checkpoint ids and
timestamps become explicit string parameters. -/

/-- Modelled from the spec: constants.rs is absent from the tree; START and
END are the reserved node names of section 4.1. -/
def START : String := "__start__"

/-- Modelled from the spec: constants.rs is absent from the tree; END is the
reserved terminal name of section 4.1. -/
def END : String := "__end__"

/-- Modelled from the spec: error.rs is absent from the tree.  Interrupt
(section 3) carries the suspension id, the suspending node and an opaque
value. -/
structure Interrupt where
  id : String
  node : String
  value : Json

/-- Modelled from the spec: error.rs is absent from the tree.  The error
kinds of section 7. -/
inductive GraphError where
  | nodeNotFound (node : String)
  | branchError (node message : String)
  | executionError (node message : String)
  | permissionDenied (permission message : String)
  | interrupted (pending : List Interrupt)
  | checkpointError (message : String)
  | aborted (reason : String)
  | maxIterationsExceeded
  | other (message : String)

/-- Modelled from the spec: error.rs is absent from the tree.  ResumeCommand
carries the resume value and an optional interrupt id (sections 4.3, 7). -/
structure ResumeCommand where
  value : Json
  interruptId : Option String

/-- First-match association lookup, modelling HashMap::get. -/
def assocFind {α : Type} (l : List (String × α)) (key : String) : Option α :=
  match l.find? (fun e => e.1 == key) with
  | some e => some e.2
  | none => none

/-- HashMap::insert: overwrite any existing binding for the key. -/
def mapInsert (m : List (String × Json)) (key : String) (v : Json) :
    List (String × Json) :=
  (key, v) :: m.filter (fun e => e.1 ≠ key)

/-- The GraphState trait operations used by the executor (state.rs is in the
tree only through its users): get_next and the dynamic set escape hatch. -/
structure StateOps (σ : Type) where
  getNext : σ → Option String
  set : σ → String → Json → σ

/-- Graph edges (graph.rs is absent from the tree; the Edge enum is taken
from its uses in executor.rs: direct and conditional variants). -/
inductive Edge where
  | direct (dest : String)
  | conditional (branch : String)

/-- Modelled from the spec: graph.rs is absent from the tree.  A BranchSpec
evaluates state to a key and resolves it via a static table, or by identity
when no table is given (section 4.1). -/
structure BranchSpec (σ : Type) where
  eval : σ → String
  table : Option (List (String × String))

/-- Modelled from the spec: graph.rs is absent from the tree.
evaluate_branch looks the branch up by name, evaluates it on the state and
resolves the key; a missing branch or destination is a BranchError
(sections 4.1, 7). -/
def evaluateBranch {σ : Type} (branches : List (String × BranchSpec σ)) (name : String)
    (st : σ) : Except GraphError String :=
  match assocFind branches name with
  | none => .error (.branchError name "branch not found")
  | some b =>
    let key := b.eval st
    match b.table with
    | none => .ok key
    | some t =>
      match assocFind t key with
      | some dest => .ok dest
      | none => .error (.branchError name ("no destination for key " ++ key))

/-- A compiled graph (executor.rs CompiledGraph) together with the parts of
ExecutionConfig that the run loops consult: max_iterations and masked_nodes.
Metrics accounting and debug printing do not affect results and are
omitted. -/
structure CompiledGraph (σ : Type) where
  nodes : List (String × (σ → Except GraphError σ))
  edges : List (String × List Edge)
  branches : List (String × BranchSpec σ)
  maxIterations : Nat
  masked : List String
  ops : StateOps σ

/-- The edge scan inside get_next_node (executor.rs 691-705): the first
conditional edge wins; otherwise the first direct edge is remembered. -/
def edgeScan {σ : Type} (g : CompiledGraph σ) (st : σ) :
    List Edge → Option String → Except GraphError String
  | [], direct => .ok (direct.getD END)
  | .conditional branch :: _, _ => evaluateBranch g.branches branch st
  | .direct dest :: rest, direct =>
    edgeScan g st rest (if direct.isNone then some dest else direct)

/-- get_next_node (executor.rs 679-708): an explicit next on the state wins;
otherwise scan the edges of the current node; no or empty edge list means
END. -/
def getNextNode {σ : Type} (g : CompiledGraph σ) (current : String) (st : σ) :
    Except GraphError String :=
  match g.ops.getNext st with
  | some next => .ok next
  | none =>
    match assocFind g.edges current with
    | none => .ok END
    | some [] => .ok END
    | some es => edgeScan g st es none

/-- The while loop of invoke_with_metrics (executor.rs 440-491) followed by
the post-loop bound check (489-491).  The loop variable iterations only
enters through the comparison with max_iterations and the increment, so the
loop is driven by remaining = max_iterations - iterations; remaining = 0 is
exactly iterations >= max_iterations, in which case both exits of the Rust
code - the loop-condition exit and the post-loop check - produce
MaxIterationsExceeded, even when current is already END. -/
def invokeLoop {σ : Type} (g : CompiledGraph σ) : σ → String → Nat → Except GraphError σ
  | _, _, 0 => .error .maxIterationsExceeded
  | st, current, r + 1 =>
    if current = END then .ok st
    else
      if g.masked.contains current then
        match getNextNode g current st with
        | .error e => .error e
        | .ok nxt => invokeLoop g st nxt r
      else
        match assocFind g.nodes current with
        | none => .error (.nodeNotFound current)
        | some node =>
          match node st with
          | .error e => .error e
          | .ok st2 =>
            match getNextNode g current st2 with
            | .error e => .error e
            | .ok nxt => invokeLoop g st2 nxt r

/-- invoke_with_metrics (executor.rs 428-507), returning the Complete state;
metrics carry no information about the result and are omitted. -/
def invokeWithMetrics {σ : Type} (g : CompiledGraph σ) (st : σ) : Except GraphError σ :=
  match getNextNode g START st with
  | .error e => .error e
  | .ok c => invokeLoop g st c g.maxIterations

/-- Reference run: the number of loop passes (node executions or masked
skips) the graph needs to reach END from a given node, ignoring the
iteration bound; none when an error, interrupt or fuel exhaustion occurs
first.  Each step mirrors one pass of the invoke loop. -/
def stepsToEnd {σ : Type} (g : CompiledGraph σ) : Nat → σ → String → Option (Nat × σ)
  | 0, st, current => if current = END then some (0, st) else none
  | f + 1, st, current =>
    if current = END then some (0, st)
    else
      if g.masked.contains current then
        match getNextNode g current st with
        | .error _ => none
        | .ok nxt => (stepsToEnd g f st nxt).map (fun r => (r.1 + 1, r.2))
      else
        match assocFind g.nodes current with
        | none => none
        | some node =>
          match node st with
          | .error _ => none
          | .ok st2 =>
            match getNextNode g current st2 with
            | .error _ => none
            | .ok nxt => (stepsToEnd g f st2 nxt).map (fun r => (r.1 + 1, r.2))

theorem invokeLoop_of_stepsToEnd {σ : Type} (g : CompiledGraph σ) (fuel : Nat) :
    ∀ (st : σ) (c : String) (k : Nat) (s : σ),
      stepsToEnd g fuel st c = some (k, s) →
      ∀ remaining, invokeLoop g st c remaining =
        if remaining ≤ k then .error .maxIterationsExceeded else .ok s := by
  induction fuel with
  | zero =>
    intro st c k s hrun remaining
    unfold stepsToEnd at hrun
    by_cases hc : c = END
    · rw [if_pos hc] at hrun
      simp only [Option.some.injEq, Prod.mk.injEq] at hrun
      cases remaining with
      | zero => simp [invokeLoop, hrun.1]
      | succ r =>
        simp only [invokeLoop, if_pos hc]
        rw [if_neg (by omega)]
        rw [hrun.2]
    · rw [if_neg hc] at hrun
      cases hrun
  | succ f ih =>
    intro st c k s hrun remaining
    unfold stepsToEnd at hrun
    by_cases hc : c = END
    · rw [if_pos hc] at hrun
      simp only [Option.some.injEq, Prod.mk.injEq] at hrun
      cases remaining with
      | zero => simp [invokeLoop, hrun.1]
      | succ r =>
        simp only [invokeLoop, if_pos hc]
        rw [if_neg (by omega)]
        rw [hrun.2]
    · rw [if_neg hc] at hrun
      have hkpos : 1 ≤ k := by
        by_cases hm : g.masked.contains c = true
        · rw [if_pos hm] at hrun
          cases hnx : getNextNode g c st with
          | error e => rw [hnx] at hrun; cases hrun
          | ok nxt =>
            rw [hnx] at hrun
            simp only [Option.map_eq_some'] at hrun
            obtain ⟨r2, -, hr⟩ := hrun
            rw [Prod.mk.injEq] at hr
            omega
        · rw [if_neg hm] at hrun
          cases hnd : assocFind g.nodes c with
          | none => rw [hnd] at hrun; cases hrun
          | some node =>
            simp only [hnd] at hrun
            cases hex : node st with
            | error e => rw [hex] at hrun; cases hrun
            | ok st2 =>
              simp only [hex] at hrun
              cases hnx : getNextNode g c st2 with
              | error e => rw [hnx] at hrun; cases hrun
              | ok nxt =>
                simp only [hnx, Option.map_eq_some'] at hrun
                obtain ⟨r2, -, hr⟩ := hrun
                rw [Prod.mk.injEq] at hr
                omega
      cases remaining with
      | zero => simp [invokeLoop, Nat.le_of_lt hkpos]
      | succ r =>
        simp only [invokeLoop, if_neg hc]
        by_cases hm : g.masked.contains c = true
        · rw [if_pos hm] at hrun
          rw [if_pos hm]
          cases hnx : getNextNode g c st with
          | error e => rw [hnx] at hrun; cases hrun
          | ok nxt =>
            simp only [hnx] at hrun
            simp only [hnx]
            simp only [Option.map_eq_some'] at hrun
            obtain ⟨⟨k2, s2⟩, hrec, hr⟩ := hrun
            rw [Prod.mk.injEq] at hr
            obtain ⟨hk, hs⟩ := hr
            subst hk
            subst hs
            rw [ih st nxt k2 s2 hrec r]
            by_cases hle : r ≤ k2
            · rw [if_pos hle, if_pos (by omega)]
            · rw [if_neg hle, if_neg (by omega)]
        · rw [if_neg hm] at hrun
          rw [if_neg hm]
          cases hnd : assocFind g.nodes c with
          | none => rw [hnd] at hrun; cases hrun
          | some node =>
            simp only [hnd] at hrun
            simp only [hnd]
            cases hex : node st with
            | error e => rw [hex] at hrun; cases hrun
            | ok st2 =>
              simp only [hex] at hrun
              simp only [hex]
              cases hnx : getNextNode g c st2 with
              | error e => rw [hnx] at hrun; cases hrun
              | ok nxt =>
                simp only [hnx] at hrun
                simp only [hnx]
                simp only [Option.map_eq_some'] at hrun
                obtain ⟨⟨k2, s2⟩, hrec, hr⟩ := hrun
                rw [Prod.mk.injEq] at hr
                obtain ⟨hk, hs⟩ := hr
                subst hk
                subst hs
                rw [ih st2 nxt k2 s2 hrec r]
                by_cases hle : r ≤ k2
                · rw [if_pos hle, if_pos (by omega)]
                · rw [if_neg hle, if_neg (by omega)]

/-- C3 (amended): a run whose next-node resolution reaches END after k node
executions (masked skips included) terminates with Complete exactly when k
is strictly smaller than max_iterations, and returns MaxIterationsExceeded
exactly when k is at least max_iterations: the post-loop check
iterations >= max_iterations fires even when the loop already reached END in
exactly max_iterations passes. -/
theorem invoke_iteration_bound {σ : Type} (g : CompiledGraph σ) (st : σ) (fuel k : Nat)
    (s : σ) (c : String) (hstart : getNextNode g START st = .ok c)
    (hrun : stepsToEnd g fuel st c = some (k, s)) :
    invokeWithMetrics g st =
      if g.maxIterations ≤ k then .error .maxIterationsExceeded else .ok s := by
  unfold invokeWithMetrics
  rw [hstart]
  exact invokeLoop_of_stepsToEnd g fuel st c k s hrun g.maxIterations

/-- One-node graph over the trivial state used for the C3 counterexample,
with max_iterations = 1. -/
def c3Graph : CompiledGraph Unit :=
  { nodes := [("a", fun s => .ok s)],
    edges := [(START, [.direct "a"]), ("a", [.direct END])],
    branches := [],
    maxIterations := 1,
    masked := [],
    ops := { getNext := fun _ => none, set := fun s _ _ => s } }

/-- C3 (counterexample): the run of c3Graph resolves START to node a and
reaches END after exactly one node execution, which is at most
max_iterations = 1, yet invoke returns MaxIterationsExceeded instead of the
Complete result the claim requires. -/
theorem invoke_iteration_bound_counterexample :
    getNextNode c3Graph START () = .ok "a" ∧
    stepsToEnd c3Graph 2 () "a" = some (1, ()) ∧
    invokeWithMetrics c3Graph () = .error .maxIterationsExceeded :=
  ⟨rfl, rfl, rfl⟩

/-- The same graph with max_iterations = 2, used by the C3 witness. -/
def c3Graph2 : CompiledGraph Unit :=
  { c3Graph with maxIterations := 2 }

theorem invoke_iteration_bound_witness :
    invokeWithMetrics c3Graph2 () = .ok () := by
  have h := invoke_iteration_bound c3Graph2 () 2 1 () "a" rfl rfl
  simpa using h

/-! ### Checkpoint / resume (executor.rs 760-898) -/

/-- Checkpoint (executor.rs 250-269): a suspended run with its pending
interrupts and accumulated resume values. -/
structure Checkpoint (σ : Type) where
  runId : String
  checkpointId : String
  createdAt : String
  state : σ
  nextNode : String
  pendingInterrupts : List Interrupt
  iterations : Nat
  resumeValues : List (String × Json)

/-- Execution result (executor.rs 272-281). -/
inductive ExecutionResult (σ : Type) where
  | complete (state : σ)
  | interrupted (checkpoint : Checkpoint σ) (interrupts : List Interrupt)

/-- The while loop of run_with_checkpoint (executor.rs 833-891) with its
post-loop bound check (893-897).  As in invokeLoop, remaining stands for
max_iterations - iterations (both exit paths with remaining = 0 are
MaxIterationsExceeded); iterations itself is still threaded because the
checkpoint captured on an interrupt records it.  The fresh uuid checkpoint
id and the creation timestamp are the ckptId and createdAt parameters. -/
def runCheckpointLoop {σ : Type} (g : CompiledGraph σ) (runId ckptId createdAt : String)
    (resumeValues : List (String × Json)) :
    σ → String → Nat → Nat → Except GraphError (ExecutionResult σ)
  | _, _, _, 0 => .error .maxIterationsExceeded
  | st, current, iterations, r + 1 =>
    if current = END then .ok (.complete st)
    else
      if g.masked.contains current then
        match getNextNode g current st with
        | .error e => .error e
        | .ok nxt =>
          runCheckpointLoop g runId ckptId createdAt resumeValues st nxt (iterations + 1) r
      else
        let st1 := match assocFind resumeValues current with
          | some v => g.ops.set st ("resume:" ++ current) v
          | none => st
        match assocFind g.nodes current with
        | none => .error (.nodeNotFound current)
        | some node =>
          match node st1 with
          | .ok st2 =>
            match getNextNode g current st2 with
            | .error e => .error e
            | .ok nxt =>
              runCheckpointLoop g runId ckptId createdAt resumeValues st2 nxt (iterations + 1) r
          | .error (.interrupted ints) =>
            .ok (.interrupted
              { runId := runId, checkpointId := ckptId, createdAt := createdAt,
                state := st1, nextNode := current, pendingInterrupts := ints,
                iterations := iterations + 1, resumeValues := resumeValues }
              ints)
          | .error e => .error e

/-- run_with_checkpoint (executor.rs 817-898): resolve the entry node when
starting from START, then run the checkpoint loop. -/
def runWithCheckpoint {σ : Type} (g : CompiledGraph σ) (runId ckptId createdAt : String)
    (initialState : σ) (startNode : String) (startIterations : Nat)
    (resumeValues : List (String × Json)) : Except GraphError (ExecutionResult σ) :=
  match (if startNode = START then getNextNode g START initialState else .ok startNode) with
  | .error e => .error e
  | .ok c =>
    runCheckpointLoop g runId ckptId createdAt resumeValues initialState c startIterations
      (g.maxIterations - startIterations)

/-- CompiledGraph::resume (executor.rs 760-814): merge the command value into
resume_values - under the command interrupt id when given, and under the id
and node of the first pending interrupt - then re-enter the loop at the
checkpoint next node.  Run-lifecycle event emission targets an optional sink
that is absent here and carries no result information. -/
def CompiledGraph.resume {σ : Type} (g : CompiledGraph σ) (ckptId createdAt : String)
    (checkpoint : Checkpoint σ) (command : ResumeCommand) :
    Except GraphError (ExecutionResult σ) :=
  let rv0 := checkpoint.resumeValues
  let rv1 := match command.interruptId with
    | some interruptId => mapInsert rv0 interruptId command.value
    | none => rv0
  let rv2 := match checkpoint.pendingInterrupts.head? with
    | some int => mapInsert (mapInsert rv1 int.id command.value) int.node command.value
    | none => rv1
  runWithCheckpoint g checkpoint.runId ckptId createdAt checkpoint.state checkpoint.nextNode
    checkpoint.iterations rv2

/-- The pause handler of the repository test suite
(tests/integration/pause_resume.rs pause_node): interrupt until a resume
value has been injected, then pass. -/
def c1PauseHandler (st : Option Json) : Except GraphError (Option Json) :=
  match st with
  | some _ => .ok st
  | none => .error (.interrupted [{ id := "int-1", node := "pause", value := .str "paused" }])

/-- The pause-node graph of the repository test suite: pause leads to finish
leads to END; the state holds the optional resume payload for node pause. -/
def c1Graph : CompiledGraph (Option Json) :=
  { nodes := [("pause", c1PauseHandler), ("finish", fun st => .ok st)],
    edges := [(START, [.direct "pause"]), ("pause", [.direct "finish"]),
      ("finish", [.direct END])],
    branches := [],
    maxIterations := 25,
    masked := [],
    ops := { getNext := fun _ => none,
             set := fun st key v => if key = "resume:pause" then some v else st } }

/-- A checkpoint of c1Graph suspended at node pause with a single pending
interrupt whose id is int-1. -/
def c1Ckpt : Checkpoint (Option Json) :=
  { runId := "run-1", checkpointId := "ck-1", createdAt := "t0",
    state := none, nextNode := "pause",
    pendingInterrupts := [{ id := "int-1", node := "pause", value := .str "paused" }],
    iterations := 1, resumeValues := [] }

/-- C1: resuming a single-pending checkpoint with a command whose
interrupt_id (wrong-id) does not match the pending id (int-1) does not fail
with CheckpointError: resume merges the value under the mismatched id, under
the pending id and under the node name, re-enters the loop, and the run
completes.  The repository test
pause_resume_rejects_mismatched_interrupt_id_for_single_pending_interrupt
requires a CheckpointError on this input. -/
theorem resume_ignores_mismatched_interrupt_id :
    c1Graph.resume "ck-2" "t1" c1Ckpt
        { value := .str "continue", interruptId := some "wrong-id" } =
      .ok (.complete (some (.str "continue"))) := rfl

/-! ## Event and tool data model (src/src/runtime/event.rs, tool.rs,
session_state.rs, message.rs) -/

/-- Session phases (session_state.rs SessionPhase). -/
inductive SessionPhase where
  | userInput
  | modelThinking
  | assistantStreaming
  | toolProposed
  | toolRunning
  | toolResult
  | assistantFinalize
  | completed
  | interrupted
  | resumed
deriving DecidableEq, Repr

/-- Modelled from the spec: RunStatus is imported from session_state.rs but
not defined in the tree; only the Running and Completed values are used by
the executor, alongside the paused/failed/aborted run events of section 3. -/
inductive RunStatus where
  | pending
  | running
  | completed
  | failed
  | aborted
deriving DecidableEq, Repr

/-- Token usage breakdown (event.rs TokenUsage). -/
structure TokenUsage where
  input : Nat
  output : Nat
  reasoning : Nat
  cacheRead : Nat
  cacheWrite : Nat
deriving DecidableEq, Repr

/-- Tool lifecycle states (tool.rs ToolState). -/
inductive ToolState where
  | pending
  | running
  | completed
  | error
deriving DecidableEq, Repr

/-- Tool invocation metadata (tool.rs ToolCall). -/
structure ToolCall where
  tool : String
  callId : String
  input : Json

/-- Attachment payload (tool.rs AttachmentPayload). -/
inductive AttachmentPayload where
  | inline (data : Json)
  | reference (reference : String)

/-- Tool attachment descriptor (tool.rs ToolAttachment). -/
structure ToolAttachment where
  name : String
  mimeType : String
  size : Option Nat
  payload : AttachmentPayload

/-- ToolAttachment::reference (tool.rs 73-88). -/
def ToolAttachment.mkReference (name mimeType reference : String) (size : Option Nat) :
    ToolAttachment :=
  { name := name, mimeType := mimeType, size := size,
    payload := .reference reference }

/-- Inline-versus-reference policy (tool.rs AttachmentPolicy). -/
structure AttachmentPolicy where
  maxInlineBytes : Nat

/-- Typed metadata for tool output (tool.rs ToolMetadata). -/
structure ToolMetadata where
  mimeType : Option String
  schema : Option String
  source : Option String
  attributes : List (String × Json)

/-- Structured tool output payload (tool.rs ToolOutput). -/
structure ToolOutput where
  content : Json
  metadata : Option ToolMetadata
  attachments : List ToolAttachment

/-- Tool update payloads (event.rs ToolUpdate). -/
inductive ToolUpdate where
  | outputDelta (delta : String) (stream : Option String)
  | outputPreview (preview : Json) (truncated : Bool)
  | metadata (metadata : ToolMetadata)
  | progress (current : Nat) (total : Option Nat) (unit : Option String)
      (message : Option String)
  | custom (data : Json)

/-- Runtime events (event.rs Event), with every variant of the enum. -/
inductive Event where
  | runStarted (runId : String) (status : RunStatus)
  | runPaused (runId checkpointId : String)
  | runResumed (runId checkpointId : String)
  | runCompleted (runId : String) (status : RunStatus)
  | runFailed (runId errorText : String)
  | runAborted (runId reason : String)
  | textDelta (sessionId messageId delta : String)
  | textFinal (sessionId messageId text : String)
  | attachment (sessionId messageId name mimeType : String) (data : Json)
  | error (sessionId messageId message : String)
  | toolStart (tool callId : String) (input : Json)
  | toolUpdate (tool callId : String) (update : ToolUpdate)
  | toolResult (tool callId : String) (output : ToolOutput)
  | toolAttachment (tool callId : String) (attachment : ToolAttachment)
  | toolError (tool callId errorText : String)
  | toolStatus (tool callId : String) (state : ToolState)
  | stepStart (sessionId : String)
  | stepFinish (sessionId : String) (tokens : TokenUsage) (cost : Float)
  | permissionAsked (permission : String) (patterns : List String)
      (metadata : List (String × Json)) (always : List String)
  | permissionReplied (permission : String) (reply : PermissionReply)
  | sessionCompacted (sessionId summary : String) (truncatedBefore : Nat)
  | sessionCompactionRequested (sessionId : String) (messageCount : Nat)
      (tokens : TokenUsage) (contextWindow : Option Nat) (thresholdRatio : Option Float)
  | sessionPhaseChanged (sessionId messageId : String) (fromPhase toPhase : SessionPhase)
  | sessionPhaseTransitionRejected (sessionId messageId : String)
      (fromPhase toPhase : SessionPhase) (reason : String)

/-! ## Tool lifecycle runner (src/src/runtime/tool.rs)

The event sink of the runner is a collecting sink - the CaptureSink of the
repository tests - so emission becomes list building.  The serde_json::to_vec
serializer and the attachment store are external collaborators passed in as
functions. -/

/-- The parts of ToolContext that the runner and attachment normalization
consult: the attachment policy, the optional attachment store (store
returning a reference string), and the byte serializer standing for
serde_json::to_vec. -/
structure ToolCtx where
  attachmentPolicy : AttachmentPolicy
  attachmentStore : Option (ToolAttachment → Except GraphError String)
  serdeToVec : Json → Except String (List Nat)

/-- Modelled from the spec: the Display text of the error kinds of section 7
(error.rs is absent from the tree).  The lifecycle claims depend only on the
message of the failing error being carried by ToolError, not on its exact
wording. -/
def GraphError.toMessage : GraphError → String
  | .nodeNotFound node => "node not found: " ++ node
  | .branchError node message => "branch error at " ++ node ++ ": " ++ message
  | .executionError node message => "execution error at " ++ node ++ ": " ++ message
  | .permissionDenied permission message => "permission denied: " ++ permission ++ ": " ++ message
  | .interrupted _ => "interrupted"
  | .checkpointError message => "checkpoint error: " ++ message
  | .aborted reason => "aborted: " ++ reason
  | .maxIterationsExceeded => "max iterations exceeded"
  | .other message => message

/-- mime_type.trim().is_empty(): a string is blank after trimming exactly
when every character is whitespace. -/
def blankMimeType (s : String) : Bool :=
  s.data.all (fun c => c.isWhitespace)

/-- normalize_attachment (tool.rs 488-527). -/
def normalizeAttachment (ctx : ToolCtx) (tool : String) (attachment : ToolAttachment) :
    Except GraphError ToolAttachment :=
  if blankMimeType attachment.mimeType then
    .error (.executionError ("tool:" ++ tool) "attachment mime_type missing")
  else
    match attachment.payload with
    | .inline data =>
      match ctx.serdeToVec data with
      | .error err =>
        .error (.executionError ("tool:" ++ tool) ("attachment serialization failed: " ++ err))
      | .ok bytes =>
        let size := bytes.length
        if size ≤ ctx.attachmentPolicy.maxInlineBytes then
          .ok { attachment with size := some size }
        else
          match ctx.attachmentStore with
          | none => .error (.executionError ("tool:" ++ tool) "attachment store unavailable")
          | some store =>
            match store attachment with
            | .error e => .error e
            | .ok reference =>
              .ok (ToolAttachment.mkReference attachment.name attachment.mimeType reference
                (some size))
    | .reference _ => .ok attachment

/-- process_attachments (tool.rs 476-486): normalize each attachment in
order, stopping at the first failure. -/
def processAttachments (ctx : ToolCtx) (tool : String) :
    List ToolAttachment → Except GraphError (List ToolAttachment)
  | [] => .ok []
  | a :: rest =>
    match normalizeAttachment ctx tool a with
    | .error e => .error e
    | .ok a2 =>
      match processAttachments ctx tool rest with
      | .error e => .error e
      | .ok rest2 => .ok (a2 :: rest2)

/-- ToolRunner::run_with_events (tool.rs 387-473) against a collecting sink:
the handler is represented by its observable behaviour, the events it emits
through the shared sink and its result.  Emissions accumulate one at a time
in program order, mirroring each sink.emit call of the source; the
per-attachment for loop becomes a fold. -/
def runWithEvents (ctx : ToolCtx) (call : ToolCall)
    (handlerResult : Except GraphError ToolOutput) (handlerEvents : List Event) :
    Except GraphError ToolOutput × List Event :=
  let es0 := [Event.toolStatus call.tool call.callId .pending]
  let es1 := es0 ++ [Event.toolStart call.tool call.callId call.input]
  let es2 := es1 ++ [Event.toolStatus call.tool call.callId .running]
  let es3 := es2 ++ handlerEvents
  match handlerResult with
  | .ok output =>
    match processAttachments ctx call.tool output.attachments with
    | .ok atts =>
      let output2 := { output with attachments := atts }
      let es4 := es3 ++ [Event.toolStatus call.tool call.callId .completed]
      let es5 := atts.foldl (fun es a => es ++ [Event.toolAttachment call.tool call.callId a]) es4
      let es6 := es5 ++ [Event.toolResult call.tool call.callId output2]
      (.ok output2, es6)
    | .error err =>
      (.error err,
        es3 ++ [Event.toolStatus call.tool call.callId .error,
          Event.toolError call.tool call.callId err.toMessage])
  | .error err =>
    (.error err,
      es3 ++ [Event.toolStatus call.tool call.callId .error,
        Event.toolError call.tool call.callId err.toMessage])

theorem foldl_append_singleton {α : Type} (f : α → Event) :
    ∀ (l : List α) (init : List Event),
      l.foldl (fun es a => es ++ [f a]) init = init ++ l.map f := by
  intro l
  induction l with
  | nil => intro init; simp
  | cons a rest ih =>
    intro init
    simp only [List.foldl_cons, List.map_cons]
    rw [ih (init ++ [f a])]
    simp

/-- C4: the emitted event sequence of a tool invocation is exactly
ToolStatus(Pending), ToolStart(input), ToolStatus(Running), the handler
events, then on success ToolStatus(Completed), one ToolAttachment per
normalized attachment in order and ToolResult(output); on handler or
normalization failure the emissions after the handler are exactly
ToolStatus(Error) followed by ToolError(message), and the error is
returned. -/
theorem tool_lifecycle_order (ctx : ToolCtx) (call : ToolCall)
    (handlerResult : Except GraphError ToolOutput) (handlerEvents : List Event) :
    (∀ output atts, handlerResult = .ok output →
      processAttachments ctx call.tool output.attachments = .ok atts →
      runWithEvents ctx call handlerResult handlerEvents =
        (.ok { output with attachments := atts },
          [Event.toolStatus call.tool call.callId .pending,
           Event.toolStart call.tool call.callId call.input,
           Event.toolStatus call.tool call.callId .running] ++
          handlerEvents ++
          [Event.toolStatus call.tool call.callId .completed] ++
          atts.map (fun a => Event.toolAttachment call.tool call.callId a) ++
          [Event.toolResult call.tool call.callId { output with attachments := atts }])) ∧
    (∀ output err, handlerResult = .ok output →
      processAttachments ctx call.tool output.attachments = .error err →
      runWithEvents ctx call handlerResult handlerEvents =
        (.error err,
          [Event.toolStatus call.tool call.callId .pending,
           Event.toolStart call.tool call.callId call.input,
           Event.toolStatus call.tool call.callId .running] ++
          handlerEvents ++
          [Event.toolStatus call.tool call.callId .error,
           Event.toolError call.tool call.callId err.toMessage])) ∧
    (∀ err, handlerResult = .error err →
      runWithEvents ctx call handlerResult handlerEvents =
        (.error err,
          [Event.toolStatus call.tool call.callId .pending,
           Event.toolStart call.tool call.callId call.input,
           Event.toolStatus call.tool call.callId .running] ++
          handlerEvents ++
          [Event.toolStatus call.tool call.callId .error,
           Event.toolError call.tool call.callId err.toMessage])) := by
  refine ⟨?_, ?_, ?_⟩
  · intro output atts hres hatts
    subst hres
    unfold runWithEvents
    simp only [hatts]
    rw [foldl_append_singleton]
    simp
  · intro output err hres hatts
    subst hres
    unfold runWithEvents
    simp only [hatts]
    simp
  · intro err hres
    subst hres
    unfold runWithEvents
    simp

/-- Context and call used by the C4 and C5 witnesses: policy
max_inline_bytes = 4, a store returning attachment://mem-1, and a serializer
that measures every payload at 13 bytes (the S5 scenario of the spec). -/
def c4Ctx : ToolCtx :=
  { attachmentPolicy := { maxInlineBytes := 4 },
    attachmentStore := some (fun _ => .ok "attachment://mem-1"),
    serdeToVec := fun _ => .ok (List.replicate 13 0) }

def c4Call : ToolCall := { tool := "grep", callId := "call-1", input := .str "hi" }

def c4Output : ToolOutput := { content := .str "ok", metadata := none, attachments := [] }

theorem tool_lifecycle_order_witness :
    runWithEvents c4Ctx c4Call (.ok c4Output) [] =
      (.ok c4Output,
        [Event.toolStatus "grep" "call-1" .pending,
         Event.toolStart "grep" "call-1" (.str "hi"),
         Event.toolStatus "grep" "call-1" .running,
         Event.toolStatus "grep" "call-1" .completed,
         Event.toolResult "grep" "call-1" c4Output]) := by
  have h := (tool_lifecycle_order c4Ctx c4Call (.ok c4Output) []).1 c4Output [] rfl rfl
  simpa using h

/-- C5: attachment normalization.  An attachment with a blank mime type is
rejected; an inline attachment whose serialized size fits max_inline_bytes
stays inline with its measured size; an oversized inline attachment becomes
a store-provided reference with the measured size, failing with
ExecutionError("attachment store unavailable") when no store is configured;
reference attachments pass through unchanged. -/
theorem attachment_normalization (ctx : ToolCtx) (tool : String)
    (attachment : ToolAttachment) :
    (blankMimeType attachment.mimeType = true →
      normalizeAttachment ctx tool attachment =
        .error (.executionError ("tool:" ++ tool) "attachment mime_type missing")) ∧
    (blankMimeType attachment.mimeType = false →
      ∀ data bytes, attachment.payload = .inline data →
        ctx.serdeToVec data = .ok bytes →
        (bytes.length ≤ ctx.attachmentPolicy.maxInlineBytes →
          normalizeAttachment ctx tool attachment =
            .ok { attachment with size := some bytes.length }) ∧
        (ctx.attachmentPolicy.maxInlineBytes < bytes.length →
          ctx.attachmentStore = none →
          normalizeAttachment ctx tool attachment =
            .error (.executionError ("tool:" ++ tool) "attachment store unavailable")) ∧
        (∀ store reference, ctx.attachmentPolicy.maxInlineBytes < bytes.length →
          ctx.attachmentStore = some store →
          store attachment = .ok reference →
          normalizeAttachment ctx tool attachment =
            .ok (ToolAttachment.mkReference attachment.name attachment.mimeType reference
              (some bytes.length)))) ∧
    (blankMimeType attachment.mimeType = false →
      ∀ reference, attachment.payload = .reference reference →
        normalizeAttachment ctx tool attachment = .ok attachment) := by
  refine ⟨?_, ?_, ?_⟩
  · intro hmime
    unfold normalizeAttachment
    rw [if_pos hmime]
  · intro hmime data bytes hpayload hser
    refine ⟨?_, ?_, ?_⟩
    · intro hfit
      unfold normalizeAttachment
      rw [if_neg (by simp [hmime])]
      simp only [hpayload, hser]
      rw [if_pos hfit]
    · intro hbig hstore
      unfold normalizeAttachment
      rw [if_neg (by simp [hmime])]
      simp only [hpayload, hser, hstore]
      rw [if_neg (by omega)]
    · intro store reference hbig hstore href
      unfold normalizeAttachment
      rw [if_neg (by simp [hmime])]
      simp only [hpayload, hser, hstore, href]
      rw [if_neg (by omega)]
  · intro hmime reference hpayload
    unfold normalizeAttachment
    rw [if_neg (by simp [hmime])]
    simp only [hpayload]

/-- Oversized inline attachment used by the C5 witness (13 serialized bytes
against max_inline_bytes = 4). -/
def c5Attachment : ToolAttachment :=
  { name := "blob", mimeType := "application/json", size := none,
    payload := .inline (.str "0123456789a") }

theorem attachment_normalization_witness :
    normalizeAttachment c4Ctx "grep" c5Attachment =
      .ok (ToolAttachment.mkReference "blob" "application/json" "attachment://mem-1"
        (some 13)) := by
  have h := ((attachment_normalization c4Ctx "grep" c5Attachment).2.1 (by decide)
    (.str "0123456789a") (List.replicate 13 0) rfl rfl).2.2
    (fun _ => .ok "attachment://mem-1") "attachment://mem-1" (by decide) rfl rfl
  simpa using h

/-! ## Event sequencing and the recording sink (event.rs 116-137,
executor.rs 990-1071)

The uuid and wall-clock calls inside EventMeta::new become an explicit
source of ids and timestamps indexed by the assigned sequence number (each
record of one sequencer receives a distinct number). -/

/-- Event metadata (event.rs EventMeta). -/
structure EventMeta where
  eventId : String
  timestampMs : Nat
  seq : Nat
deriving DecidableEq, Repr

/-- Event record with protocol metadata (event.rs EventRecord). -/
structure EventRecord where
  meta : EventMeta
  event : Event

/-- External source of uuids and wall-clock readings for EventMeta::new. -/
structure MetaSource where
  idOf : Nat → String
  tsOf : Nat → Nat

/-- Sequencer state (event.rs EventSequencer): the atomic counter becomes a
plain natural number threaded through record calls. -/
structure EventSequencer where
  nextSeq : Nat

/-- EventSequencer::new (event.rs 123-125). -/
def EventSequencer.new : EventSequencer := { nextSeq := 0 }

/-- EventSequencer::with_start_seq (event.rs 127-131). -/
def EventSequencer.withStartSeq (start : Nat) : EventSequencer := { nextSeq := start }

/-- EventSequencer::record (event.rs 133-136): fetch_add(1) + 1 assigns the
successor of the stored counter and advances it. -/
def EventSequencer.record (gen : MetaSource) (s : EventSequencer) (event : Event) :
    EventRecord × EventSequencer :=
  let seq := s.nextSeq + 1
  ({ meta := { eventId := gen.idOf seq, timestampMs := gen.tsOf seq, seq := seq },
      event := event },
    { nextSeq := s.nextSeq + 1 })

/-- Recording sink state (executor.rs RecordingSink): the history buffer and
the sequencer.  Forwarding to the record sink and the inner user sink does
not change the recorded stream and is omitted. -/
structure RecordingSink where
  history : List EventRecord
  sequencer : EventSequencer

/-- RecordingSink::emit (executor.rs 1062-1071): ask the sequencer for a
fresh record and append it to history. -/
def RecordingSink.emit (gen : MetaSource) (rs : RecordingSink) (event : Event) :
    RecordingSink :=
  let pr := rs.sequencer.record gen event
  { history := rs.history ++ [pr.1], sequencer := pr.2 }

/-- A run of consecutive emissions through one recording sink. -/
def RecordingSink.emitAll (gen : MetaSource) (rs : RecordingSink) (events : List Event) :
    RecordingSink :=
  events.foldl (RecordingSink.emit gen) rs

/-- The record a sequencer assigns number c. -/
def mkRecord (gen : MetaSource) (c : Nat) (e : Event) : EventRecord :=
  { meta := { eventId := gen.idOf c, timestampMs := gen.tsOf c, seq := c }, event := e }

/-- The records a sequencer with counter c produces for a list of events. -/
def recordsFrom (gen : MetaSource) : Nat → List Event → List EventRecord
  | _, [] => []
  | c, e :: es => mkRecord gen (c + 1) e :: recordsFrom gen (c + 1) es

theorem emitAll_eq (gen : MetaSource) (es : List Event) :
    ∀ (h : List EventRecord) (c : Nat),
      RecordingSink.emitAll gen { history := h, sequencer := { nextSeq := c } } es =
        { history := h ++ recordsFrom gen c es,
          sequencer := { nextSeq := c + es.length } } := by
  induction es with
  | nil => intro h c; simp [RecordingSink.emitAll, recordsFrom]
  | cons e rest ih =>
    intro h c
    simp only [RecordingSink.emitAll, List.foldl_cons] at *
    have hstep : RecordingSink.emit gen { history := h, sequencer := { nextSeq := c } } e =
        { history := h ++ [mkRecord gen (c + 1) e],
          sequencer := { nextSeq := c + 1 } } := rfl
    rw [hstep, ih]
    simp only [recordsFrom, List.append_assoc, List.singleton_append, List.length_cons]
    have harith : c + 1 + rest.length = c + (rest.length + 1) := by omega
    rw [harith]

theorem recordsFrom_length (gen : MetaSource) :
    ∀ (es : List Event) (c : Nat), (recordsFrom gen c es).length = es.length := by
  intro es
  induction es with
  | nil => intro c; rfl
  | cons e rest ih => intro c; simp [recordsFrom, ih]

theorem recordsFrom_seq (gen : MetaSource) :
    ∀ (es : List Event) (c : Nat) (i : Fin (recordsFrom gen c es).length),
      ((recordsFrom gen c es).get i).meta.seq = c + i.1 + 1 := by
  intro es
  induction es with
  | nil =>
    intro c i
    exact absurd i.2 (by simp [recordsFrom])
  | cons e rest ih =>
    intro c i
    obtain ⟨iv, hi⟩ := i
    cases iv with
    | zero => rfl
    | succ j =>
      have hj : j < (recordsFrom gen (c + 1) rest).length := by
        simp only [recordsFrom, List.length_cons] at hi
        omega
      simp only [recordsFrom, List.get_cons_succ]
      have hrec := ih (c + 1) ⟨j, hj⟩
      simp only at hrec
      rw [hrec]
      omega

/-- C6: within one recording sink, consecutively emitted records carry
strictly increasing sequence numbers; a sequencer started from base n
assigns n + 1 to its first record, and a fresh sequencer is the base-0 one,
so its first record gets sequence number 1. -/
theorem monotonic_sequencing (gen : MetaSource) (base : Nat) (es : List Event) :
    (∀ i (hi : i + 1 < (RecordingSink.emitAll gen
        { history := [], sequencer := .withStartSeq base } es).history.length),
      ((RecordingSink.emitAll gen
        { history := [], sequencer := .withStartSeq base } es).history.get
          ⟨i, Nat.lt_of_succ_lt hi⟩).meta.seq <
      ((RecordingSink.emitAll gen
        { history := [], sequencer := .withStartSeq base } es).history.get
          ⟨i + 1, hi⟩).meta.seq) ∧
    (∀ r, (RecordingSink.emitAll gen
        { history := [], sequencer := .withStartSeq base } es).history.head? = some r →
      r.meta.seq = base + 1) ∧
    EventSequencer.new = EventSequencer.withStartSeq 0 := by
  have heq := emitAll_eq gen es [] base
  have hhist : (RecordingSink.emitAll gen
      { history := [], sequencer := .withStartSeq base } es).history =
      recordsFrom gen base es := by
    simp only [EventSequencer.withStartSeq]
    rw [heq]
    simp
  refine ⟨?_, ?_, rfl⟩
  · intro i hi
    rw [List.get_of_eq hhist, List.get_of_eq hhist]
    simp only [recordsFrom_seq]
    omega
  · intro r hr
    rw [hhist] at hr
    cases es with
    | nil => simp [recordsFrom] at hr
    | cons e rest =>
      simp only [recordsFrom, List.head?_cons, Option.some.injEq] at hr
      rw [← hr]
      rfl

/-- Meta source used by the C6 witness. -/
def c6Gen : MetaSource := { idOf := fun _ => "id", tsOf := fun _ => 7 }

/-- Two events emitted through one recording sink whose sequencer starts
from base 41, as in the event_sequencer_starts_after_provided_base test. -/
def c6Sink : RecordingSink :=
  RecordingSink.emitAll c6Gen { history := [], sequencer := .withStartSeq 41 }
    [.stepStart "s1", .stepStart "s2"]

theorem monotonic_sequencing_witness :
    (c6Sink.history.get ⟨0, by decide⟩).meta.seq <
      (c6Sink.history.get ⟨1, by decide⟩).meta.seq ∧
    (c6Sink.history.get ⟨0, by decide⟩).meta.seq = 42 := by
  constructor
  · exact (monotonic_sequencing c6Gen 41 [.stepStart "s1", .stepStart "s2"]).1 0 (by decide)
  · have h := (monotonic_sequencing c6Gen 41 [.stepStart "s1", .stepStart "s2"]).2.1
      (c6Sink.history.get ⟨0, by decide⟩) (by rfl)
    simpa using h

/-! ## Session state machine (src/src/runtime/session_state.rs, message.rs) -/

/-- Message roles (message.rs MessageRole). -/
inductive MessageRole where
  | system
  | user
  | assistant
  | tool
deriving DecidableEq, Repr

/-- Message parts (message.rs Part). -/
inductive Part where
  | textDelta (delta : String)
  | textFinal (text : String)
  | toolCall (tool callId : String) (input : Json)
  | toolResult (tool callId : String) (output : ToolOutput)
  | toolAttachment (tool callId : String) (attachment : ToolAttachment)
  | toolError (tool callId errorText : String)
  | attachment (name mimeType : String) (data : Json)
  | tokenUsage (usage : TokenUsage)
  | error (message : String)

/-- Structured message (message.rs Message); the uuid minted by Message::new
is irrelevant to the claims and the id field is carried verbatim. -/
structure Message where
  id : String
  role : MessageRole
  parts : List Part
  metadata : Json
  createdAtMs : Option Nat

/-- Session routing outcome (session_state.rs SessionRouting). -/
inductive SessionRouting where
  | next
  | complete
  | interrupt (reason : String)
deriving DecidableEq, Repr

/-- Tool call status (session_state.rs ToolCallStatus). -/
inductive ToolCallStatus where
  | pending
  | running
  | completed
  | error
deriving DecidableEq, Repr

/-- Tool call record (session_state.rs ToolCallRecord). -/
structure ToolCallRecord where
  tool : String
  callId : String
  status : ToolCallStatus
deriving DecidableEq, Repr

/-- Session state (session_state.rs SessionState). -/
structure SessionState where
  sessionId : String
  parentId : Option String
  messageId : String
  step : Nat
  messages : List Message
  pendingParts : List Part
  toolCalls : List ToolCallRecord
  routing : SessionRouting
  phase : SessionPhase

/-- SessionState::new (session_state.rs 64-77). -/
def SessionState.new (sessionId messageId : String) : SessionState :=
  { sessionId := sessionId, parentId := none, messageId := messageId, step := 0,
    messages := [], pendingParts := [], toolCalls := [], routing := .next,
    phase := .userInput }

/-- SessionState::can_transition (session_state.rs 142-164): identity is
allowed, Interrupted can be entered from any phase except Completed, and the
listed edges are the legal moves. -/
def SessionState.canTransition (s : SessionState) (next : SessionPhase) : Bool :=
  if s.phase = next then true
  else if next = .interrupted then decide (s.phase ≠ .completed)
  else
    match s.phase, next with
    | .userInput, .modelThinking => true
    | .modelThinking, .assistantStreaming => true
    | .assistantStreaming, .toolProposed => true
    | .assistantStreaming, .assistantFinalize => true
    | .toolProposed, .toolRunning => true
    | .toolRunning, .toolResult => true
    | .toolResult, .assistantStreaming => true
    | .toolResult, .assistantFinalize => true
    | .assistantFinalize, .completed => true
    | .interrupted, .resumed => true
    | .resumed, .modelThinking => true
    | _, _ => false

/-- The Debug rendering of a phase, as interpolated by the format! calls of
try_transition / try_transition_with_event. -/
def phaseRepr : SessionPhase → String
  | .userInput => "UserInput"
  | .modelThinking => "ModelThinking"
  | .assistantStreaming => "AssistantStreaming"
  | .toolProposed => "ToolProposed"
  | .toolRunning => "ToolRunning"
  | .toolResult => "ToolResult"
  | .assistantFinalize => "AssistantFinalize"
  | .completed => "Completed"
  | .interrupted => "Interrupted"
  | .resumed => "Resumed"

/-- SessionState::try_transition_with_event (session_state.rs 178-200): an
identity transition returns Ok(None) without emitting; a legal transition
changes the phase and returns the SessionPhaseChanged event; an illegal one
returns Err with a message naming both states and leaves the phase
unchanged - no event of any kind is produced on the error path. -/
def SessionState.tryTransitionWithEvent (s : SessionState) (next : SessionPhase) :
    Except String (Option Event) × SessionState :=
  if s.phase = next then (.ok none, s)
  else if s.canTransition next then
    (.ok (some (.sessionPhaseChanged s.sessionId s.messageId s.phase next)),
      { s with phase := next })
  else
    (.error ("invalid transition " ++ phaseRepr s.phase ++ " -> " ++ phaseRepr next), s)

/-- C7 (amended): try_transition_with_event with next equal to the current
phase returns Ok(None) without emitting; a legal transition changes the
phase and returns Ok(Some(SessionPhaseChanged{from,to})); an illegal
transition leaves the phase unchanged and returns an Err naming both
states - it does not emit SessionPhaseTransitionRejected or any other
event. -/
theorem session_phase_transition_events (s : SessionState) (next : SessionPhase) :
    (s.phase = next → s.tryTransitionWithEvent next = (.ok none, s)) ∧
    (s.phase ≠ next → s.canTransition next = true →
      s.tryTransitionWithEvent next =
        (.ok (some (.sessionPhaseChanged s.sessionId s.messageId s.phase next)),
          { s with phase := next })) ∧
    (s.phase ≠ next → s.canTransition next = false →
      s.tryTransitionWithEvent next =
        (.error ("invalid transition " ++ phaseRepr s.phase ++ " -> " ++ phaseRepr next),
          s)) := by
  refine ⟨?_, ?_, ?_⟩
  · intro h
    unfold SessionState.tryTransitionWithEvent
    rw [if_pos h]
  · intro hne hcan
    unfold SessionState.tryTransitionWithEvent
    rw [if_neg hne, if_pos hcan]
  · intro hne hcan
    unfold SessionState.tryTransitionWithEvent
    rw [if_neg hne, if_neg (by simp [hcan])]

/-- C7 (counterexample): on the illegal transition UserInput -> ToolRunning
the call returns an error string and leaves the state unchanged; no
SessionPhaseTransitionRejected event (nor any event) is emitted, although
the claim requires one. -/
theorem session_phase_transition_events_counterexample :
    (SessionState.new "s1" "m1").tryTransitionWithEvent .toolRunning =
      (.error "invalid transition UserInput -> ToolRunning", SessionState.new "s1" "m1") :=
  rfl

theorem session_phase_transition_events_witness :
    (SessionState.new "s1" "m1").tryTransitionWithEvent .modelThinking =
      (.ok (some (.sessionPhaseChanged "s1" "m1" .userInput .modelThinking)),
        { SessionState.new "s1" "m1" with phase := .modelThinking }) := by
  have h := (session_phase_transition_events (SessionState.new "s1" "m1") .modelThinking).2.1
    (by decide) (by decide)
  simpa using h

/-! ## Audit log reading (src/src/runtime/trace.rs 176-223, event.rs 99-110)

File IO and JSON text parsing are external: read_audit_log_records is
modelled from the parsed serde_json::Value onward, and the serde
deserialization of Vec of EventRecord is an explicit decoder parameter. -/

/-- EventRecord::cmp_meta (event.rs 99-106): seq, then timestamp, then
event id; String comparison is lexicographic on characters, which agrees
with the bytewise UTF-8 comparison performed by Rust. -/
def cmpMeta (a b : EventRecord) : Ordering :=
  ((compare a.meta.seq b.meta.seq).then (compare a.meta.timestampMs b.meta.timestampMs)).then
    (compare a.meta.eventId b.meta.eventId)

instance : Batteries.TransCmp cmpMeta :=
  inferInstanceAs (Batteries.TransCmp
    (compareLex
      (compareLex (compareOn (fun r : EventRecord => r.meta.seq))
        (compareOn (fun r : EventRecord => r.meta.timestampMs)))
      (compareOn (fun r : EventRecord => r.meta.eventId))))

/-- Non-decreasing order of the comparator: the record order produced by
sort_by(cmp_meta). -/
def metaLeB (a b : EventRecord) : Bool := (cmpMeta a b).isLE

theorem isLE_iff_ne_gt (o : Ordering) : o.isLE = true ↔ o ≠ .gt := by
  cases o <;> simp [Ordering.isLE]

theorem metaLeB_trans (a b c : EventRecord) (h1 : metaLeB a b = true)
    (h2 : metaLeB b c = true) : metaLeB a c = true := by
  rw [metaLeB, isLE_iff_ne_gt] at *
  exact Batteries.TransCmp.le_trans h1 h2

theorem metaLeB_total (a b : EventRecord) : (metaLeB a b || metaLeB b a) = true := by
  cases hab : metaLeB a b with
  | true => rfl
  | false =>
    cases hba : metaLeB b a with
    | true => rfl
    | false =>
      exfalso
      have h1 : cmpMeta a b = .gt := by
        have := (isLE_iff_ne_gt (cmpMeta a b)).not.mp (by simp [metaLeB] at hab; simp [hab])
        simp at this
        exact this
      have h2 : cmpMeta b a = .gt := by
        have := (isLE_iff_ne_gt (cmpMeta b a)).not.mp (by simp [metaLeB] at hba; simp [hba])
        simp at this
        exact this
      have h3 := Batteries.OrientedCmp.cmp_eq_gt.mp h1
      rw [h2] at h3
      cases h3

/-- sort_records_by_meta (event.rs 108-110): the stable sort_by with
cmp_meta, modelled by mergeSort against the comparator order. -/
def sortRecordsByMeta (records : List EventRecord) : List EventRecord :=
  records.mergeSort metaLeB

/-- std::io::ErrorKind, restricted to the values the reader uses. -/
inductive IoErrorKind where
  | invalidData
  | other
deriving DecidableEq, Repr

/-- std::io::Error as kind plus message. -/
structure IoError where
  kind : IoErrorKind
  message : String
deriving DecidableEq, Repr

/-- TraceReplay::read_audit_log_records (trace.rs 176-223) from the parsed
JSON value: a bare array is decoded directly (legacy form); an object must
carry a u64 version equal to 1 and a records field, which is decoded; any
other top level is invalid; every successful read is sorted by cmp_meta. -/
def readAuditLogRecords (decode : Json → Except String (List EventRecord))
    (value : Json) : Except IoError (List EventRecord) :=
  match value with
  | .arr xs =>
    match decode (.arr xs) with
    | .error err => .error { kind := .invalidData, message := err }
    | .ok records => .ok (sortRecordsByMeta records)
  | .obj fields =>
    match (Json.lookup fields "version").bind Json.asU64 with
    | none => .error { kind := .invalidData, message := "missing record log version" }
    | some version =>
      if version ≠ 1 then
        .error { kind := .invalidData, message := "unsupported record log version" }
      else
        match Json.lookup fields "records" with
        | none => .error { kind := .invalidData, message := "missing record log records" }
        | some recordsValue =>
          match decode recordsValue with
          | .error err => .error { kind := .invalidData, message := err }
          | .ok records => .ok (sortRecordsByMeta records)
  | _ => .error { kind := .invalidData, message := "invalid record log format" }

/-- C8: a version-1 object with a decodable records array reads
successfully; a legacy bare array is accepted; a version other than 1, a
missing or non-u64 version, a missing records field and a non-array
non-object top level all fail with InvalidData; every successful read is
sorted by the (seq, timestamp_ms, event_id) comparator. -/
theorem audit_log_read_spec (decode : Json → Except String (List EventRecord)) :
    (∀ fields recordsValue records,
      (Json.lookup fields "version").bind Json.asU64 = some 1 →
      Json.lookup fields "records" = some recordsValue →
      decode recordsValue = .ok records →
      readAuditLogRecords decode (.obj fields) = .ok (sortRecordsByMeta records)) ∧
    (∀ xs records, decode (.arr xs) = .ok records →
      readAuditLogRecords decode (.arr xs) = .ok (sortRecordsByMeta records)) ∧
    (∀ fields v, (Json.lookup fields "version").bind Json.asU64 = some v → v ≠ 1 →
      readAuditLogRecords decode (.obj fields) =
        .error { kind := .invalidData, message := "unsupported record log version" }) ∧
    (∀ fields, (Json.lookup fields "version").bind Json.asU64 = none →
      readAuditLogRecords decode (.obj fields) =
        .error { kind := .invalidData, message := "missing record log version" }) ∧
    (∀ fields, (Json.lookup fields "version").bind Json.asU64 = some 1 →
      Json.lookup fields "records" = none →
      readAuditLogRecords decode (.obj fields) =
        .error { kind := .invalidData, message := "missing record log records" }) ∧
    (∀ value, (∀ xs, value ≠ .arr xs) → (∀ fields, value ≠ .obj fields) →
      readAuditLogRecords decode value =
        .error { kind := .invalidData, message := "invalid record log format" }) ∧
    (∀ value res, readAuditLogRecords decode value = .ok res →
      List.Pairwise (fun a b => metaLeB a b = true) res) := by
  refine ⟨?_, ?_, ?_, ?_, ?_, ?_, ?_⟩
  · intro fields recordsValue records hv hrec hdec
    simp [readAuditLogRecords, hv, hrec, hdec]
  · intro xs records hdec
    simp [readAuditLogRecords, hdec]
  · intro fields v hv hne
    simp [readAuditLogRecords, hv, hne]
  · intro fields hv
    simp [readAuditLogRecords, hv]
  · intro fields hv hrec
    simp [readAuditLogRecords, hv, hrec]
  · intro value harr hobj
    cases value with
    | arr xs => exact absurd rfl (harr xs)
    | obj fields => exact absurd rfl (hobj fields)
    | null => rfl
    | bool b => rfl
    | num n => rfl
    | str s => rfl
  · intro value res hread
    have hsorted : ∀ records, res = sortRecordsByMeta records →
        List.Pairwise (fun a b => metaLeB a b = true) res := by
      intro records hres
      rw [hres]
      exact List.sorted_mergeSort
        (fun a b c => metaLeB_trans a b c)
        (fun a b => metaLeB_total a b) records
    cases value with
    | arr xs =>
      simp only [readAuditLogRecords] at hread
      cases hdec : decode (.arr xs) with
      | error err => simp only [hdec] at hread; cases hread
      | ok records =>
        simp only [hdec] at hread
        exact hsorted records (by injection hread; rename_i h; exact h.symm)
    | obj fields =>
      simp only [readAuditLogRecords] at hread
      cases hv : (Json.lookup fields "version").bind Json.asU64 with
      | none => simp only [hv] at hread; cases hread
      | some version =>
        simp only [hv] at hread
        by_cases hone : version ≠ 1
        · rw [if_pos hone] at hread; cases hread
        · rw [if_neg hone] at hread
          cases hrec : Json.lookup fields "records" with
          | none => simp only [hrec] at hread; cases hread
          | some recordsValue =>
            simp only [hrec] at hread
            cases hdec : decode recordsValue with
            | error err => simp only [hdec] at hread; cases hread
            | ok records =>
              simp only [hdec] at hread
              exact hsorted records (by injection hread; rename_i h; exact h.symm)
    | null => cases hread
    | bool b => cases hread
    | num n => cases hread
    | str s => cases hread

/-- Records out of order, used by the C8 witness decoder. -/
def c8Rec1 : EventRecord :=
  { meta := { eventId := "a", timestampMs := 1, seq := 1 }, event := .stepStart "s1" }

def c8Rec2 : EventRecord :=
  { meta := { eventId := "b", timestampMs := 2, seq := 2 }, event := .stepStart "s1" }

/-- Decoder standing for serde deserialization in the C8 witness: every
value decodes to the two records in reverse order. -/
def c8Decode : Json → Except String (List EventRecord) := fun _ => .ok [c8Rec2, c8Rec1]

theorem audit_log_read_spec_witness :
    readAuditLogRecords c8Decode
        (.obj [("version", .num 1), ("records", .arr [])]) =
      .ok (sortRecordsByMeta [c8Rec2, c8Rec1]) :=
  (audit_log_read_spec c8Decode).1 [("version", .num 1), ("records", .arr [])]
    (.arr []) [c8Rec2, c8Rec1] (by decide) rfl rfl

/-! ## Prune policy (src/src/runtime/prune.rs)

prune_tool_events trims a Vec of events in place; it is modelled as a
function from the event list to the retained list plus the PruneResult.
The HashSet of kept indices is modelled as the list of inserted indices
(only membership is consumed), and retain_with_index, whose swap/truncate
loop compacts the kept elements in their original order, is modelled as
the indexed filter it implements. -/

/-- PrunePolicy (prune.rs 7-10). -/
structure PrunePolicy where
  enabled : Bool
  keepToolEvents : Nat
deriving DecidableEq, Repr

/-- PruneResult (prune.rs 23-25). -/
structure PruneResult where
  pruned : Nat
deriving DecidableEq, Repr

/-- is_tool_event (prune.rs 56-64). -/
def isToolEvent : Event → Bool
  | .toolStart .. => true
  | .toolResult .. => true
  | .toolError .. => true
  | .toolStatus .. => true
  | _ => false

/-- iter().enumerate() as index-value pairs starting at i. -/
def enumFromIdx (i : Nat) : List Event → List (Nat × Event)
  | [] => []
  | e :: rest => (i, e) :: enumFromIdx (i + 1) rest

/-- The keep_tool_indices scan (prune.rs 33-42) over the reversed
enumeration: seen counts tool events from the rear, and a tool index is
inserted while the incremented count is still at most keep_tool_events. -/
def keepIndicesLoop (keep : Nat) : List (Nat × Event) → Nat → List Nat
  | [], _ => []
  | (idx, e) :: rest, seen =>
    if isToolEvent e then
      if seen + 1 ≤ keep then idx :: keepIndicesLoop keep rest (seen + 1)
      else keepIndicesLoop keep rest (seen + 1)
    else keepIndicesLoop keep rest seen

def keepToolIndices (events : List Event) (keep : Nat) : List Nat :=
  keepIndicesLoop keep (enumFromIdx 0 events).reverse 0

/-- retain_with_index (prune.rs 72-90): keeps, in order, exactly the
elements at indices the predicate accepts. -/
def retainGo (f : Nat → Event → Bool) : Nat → List Event → List Event
  | _, [] => []
  | i, e :: rest =>
    if f i e then e :: retainGo f (i + 1) rest else retainGo f (i + 1) rest

def retainWithIndex (f : Nat → Event → Bool) (events : List Event) : List Event :=
  retainGo f 0 events

/-- prune_tool_events (prune.rs 28-54): a disabled policy prunes nothing;
otherwise non-tool events always pass, tool events pass when their index
is in the keep set, and pruned is the length difference. -/
def pruneToolEvents (events : List Event) (policy : PrunePolicy) :
    List Event × PruneResult :=
  if !policy.enabled then (events, { pruned := 0 })
  else
    let keep := keepToolIndices events policy.keepToolEvents
    let kept := retainWithIndex
      (fun idx e => if isToolEvent e then decide (idx ∈ keep) else true) events
    (kept, { pruned := events.length - kept.length })

/-- Reference recursion for the retained list: a tool event survives when
the tool events from it to the end of the list number at most keep. -/
def pruneKeep (keep : Nat) : List Event → List Event
  | [] => []
  | e :: rest =>
    if isToolEvent e then
      if rest.countP isToolEvent + 1 ≤ keep then e :: pruneKeep keep rest
      else pruneKeep keep rest
    else e :: pruneKeep keep rest

theorem enumFromIdx_shift (l : List Event) :
    ∀ i, enumFromIdx (i + 1) l = (enumFromIdx i l).map (fun p => (p.1 + 1, p.2)) := by
  induction l with
  | nil => intro i; simp [enumFromIdx]
  | cons e rest ih =>
    intro i
    simp [enumFromIdx, ih (i + 1)]

theorem countP_enumFromIdx (l : List Event) :
    ∀ i, (enumFromIdx i l).countP (fun p => isToolEvent p.2) = l.countP isToolEvent := by
  induction l with
  | nil => intro i; simp [enumFromIdx]
  | cons e rest ih =>
    intro i
    simp [enumFromIdx, List.countP_cons, ih (i + 1)]

theorem keepIndicesLoop_append (keep : Nat) (qs : List (Nat × Event)) :
    ∀ (ps : List (Nat × Event)) (seen : Nat),
      keepIndicesLoop keep (ps ++ qs) seen =
        keepIndicesLoop keep ps seen ++
          keepIndicesLoop keep qs (seen + ps.countP (fun p => isToolEvent p.2)) := by
  intro ps
  induction ps with
  | nil => intro seen; simp [keepIndicesLoop]
  | cons p rest ih =>
    intro seen
    obtain ⟨idx, e⟩ := p
    cases ht : isToolEvent e with
    | false => simp [keepIndicesLoop, ht, ih seen, List.countP_cons]
    | true =>
      have harith : seen + 1 + rest.countP (fun p => isToolEvent p.2)
          = seen + (rest.countP (fun p => isToolEvent p.2) + 1) := by omega
      by_cases hle : seen + 1 ≤ keep
      · simp [keepIndicesLoop, ht, hle, ih (seen + 1), List.countP_cons, harith]
      · simp [keepIndicesLoop, ht, hle, ih (seen + 1), List.countP_cons, harith]

theorem keepIndicesLoop_map_shift (keep : Nat) :
    ∀ (ps : List (Nat × Event)) (seen : Nat),
      keepIndicesLoop keep (ps.map (fun p => (p.1 + 1, p.2))) seen =
        (keepIndicesLoop keep ps seen).map (· + 1) := by
  intro ps
  induction ps with
  | nil => intro seen; simp [keepIndicesLoop]
  | cons p rest ih =>
    intro seen
    obtain ⟨idx, e⟩ := p
    cases ht : isToolEvent e with
    | false => simp [keepIndicesLoop, ht, ih seen]
    | true =>
      by_cases hle : seen + 1 ≤ keep
      · simp [keepIndicesLoop, ht, hle, ih (seen + 1)]
      · simp [keepIndicesLoop, ht, hle, ih (seen + 1)]

theorem keepToolIndices_cons (e : Event) (rest : List Event) (keep : Nat) :
    keepToolIndices (e :: rest) keep =
      (keepToolIndices rest keep).map (· + 1) ++
        (if isToolEvent e then
          (if rest.countP isToolEvent + 1 ≤ keep then [0] else []) else []) := by
  have h1 : enumFromIdx 0 (e :: rest) = (0, e) :: enumFromIdx 1 rest := rfl
  have h2 : enumFromIdx 1 rest = (enumFromIdx 0 rest).map (fun p => (p.1 + 1, p.2)) :=
    enumFromIdx_shift rest 0
  have h3 : (enumFromIdx 1 rest).countP (fun p => isToolEvent p.2)
      = rest.countP isToolEvent := countP_enumFromIdx rest 1
  simp only [keepToolIndices, h1, List.reverse_cons, keepIndicesLoop_append,
    List.countP_reverse, h3]
  rw [h2, ← List.map_reverse, keepIndicesLoop_map_shift]
  simp [keepIndicesLoop]

theorem mem_keepToolIndices_zero (e : Event) (rest : List Event) (keep : Nat) :
    0 ∈ keepToolIndices (e :: rest) keep ↔
      (isToolEvent e = true ∧ rest.countP isToolEvent + 1 ≤ keep) := by
  rw [keepToolIndices_cons]
  by_cases ht : isToolEvent e
  · by_cases hle : rest.countP isToolEvent + 1 ≤ keep
    · simp [ht, hle]
    · simp [ht, hle]
  · simp [ht]

theorem mem_keepToolIndices_succ (e : Event) (rest : List Event) (keep idx : Nat) :
    idx + 1 ∈ keepToolIndices (e :: rest) keep ↔ idx ∈ keepToolIndices rest keep := by
  rw [keepToolIndices_cons]
  by_cases ht : isToolEvent e
  · by_cases hle : rest.countP isToolEvent + 1 ≤ keep
    · simp [ht, hle]
    · simp [ht, hle]
  · simp [ht]

theorem retainGo_shift (f : Nat → Event → Bool) :
    ∀ (l : List Event) (i : Nat),
      retainGo f (i + 1) l = retainGo (fun idx e => f (idx + 1) e) i l := by
  intro l
  induction l with
  | nil => intro i; simp [retainGo]
  | cons e rest ih =>
    intro i
    simp only [retainGo]
    rw [ih (i + 1)]

theorem retain_eq_pruneKeep (keep : Nat) :
    ∀ events : List Event,
      retainWithIndex
        (fun idx e => if isToolEvent e then
          decide (idx ∈ keepToolIndices events keep) else true) events =
      pruneKeep keep events := by
  intro events
  induction events with
  | nil => rfl
  | cons e rest ih =>
    have hfun : (fun idx x => if isToolEvent x then
          decide (idx + 1 ∈ keepToolIndices (e :: rest) keep) else true) =
        (fun idx x => if isToolEvent x then
          decide (idx ∈ keepToolIndices rest keep) else true) := by
      funext idx x
      by_cases ht : isToolEvent x
      · rw [if_pos ht, if_pos ht]
        exact decide_eq_decide.mpr (mem_keepToolIndices_succ e rest keep idx)
      · rw [if_neg ht, if_neg ht]
    have hshift : retainGo (fun idx x => if isToolEvent x then
          decide (idx ∈ keepToolIndices (e :: rest) keep) else true) 1 rest =
        pruneKeep keep rest := by
      have h1 : retainGo (fun idx x => if isToolEvent x then
            decide (idx ∈ keepToolIndices (e :: rest) keep) else true) 1 rest =
          retainGo (fun idx x => if isToolEvent x then
            decide (idx + 1 ∈ keepToolIndices (e :: rest) keep) else true) 0 rest :=
        retainGo_shift _ rest 0
      rw [h1, hfun]
      exact ih
    simp only [retainWithIndex, retainGo, Nat.zero_add]
    by_cases ht : isToolEvent e
    · rw [if_pos ht]
      by_cases hle : rest.countP isToolEvent + 1 ≤ keep
      · have h0 : 0 ∈ keepToolIndices (e :: rest) keep :=
          (mem_keepToolIndices_zero e rest keep).mpr ⟨ht, hle⟩
        simp only [decide_eq_true_eq]
        rw [if_pos h0, hshift]
        simp only [pruneKeep, if_pos ht, if_pos hle]
      · have h0 : ¬(0 ∈ keepToolIndices (e :: rest) keep) := fun h =>
          hle ((mem_keepToolIndices_zero e rest keep).mp h).2
        simp only [decide_eq_true_eq]
        rw [if_neg h0, hshift]
        simp only [pruneKeep, if_pos ht, if_neg hle]
    · rw [if_neg ht]
      rw [if_pos rfl, hshift]
      simp only [pruneKeep, if_neg ht]

theorem pruneKeep_countP (keep : Nat) :
    ∀ l : List Event,
      (pruneKeep keep l).countP isToolEvent = min (l.countP isToolEvent) keep := by
  intro l
  induction l with
  | nil => simp [pruneKeep]
  | cons e rest ih =>
    by_cases ht : isToolEvent e
    · by_cases hle : rest.countP isToolEvent + 1 ≤ keep
      · simp [pruneKeep, ht, hle, List.countP_cons, ih]
        omega
      · simp [pruneKeep, ht, hle, List.countP_cons, ih]
        omega
    · simp [pruneKeep, ht, List.countP_cons, ih]

theorem pruneKeep_filter_tool (keep : Nat) :
    ∀ l : List Event,
      (pruneKeep keep l).filter isToolEvent =
        (l.filter isToolEvent).drop (l.countP isToolEvent - keep) := by
  intro l
  induction l with
  | nil => simp [pruneKeep]
  | cons e rest ih =>
    by_cases ht : isToolEvent e
    · by_cases hle : rest.countP isToolEvent + 1 ≤ keep
      · have hz : rest.countP isToolEvent - keep = 0 := by omega
        have hz2 : rest.countP isToolEvent + 1 - keep = 0 := by omega
        simp [pruneKeep, ht, hle, List.filter_cons, List.countP_cons, hz2, ih, hz]
      · have hsucc : rest.countP isToolEvent + 1 - keep
            = (rest.countP isToolEvent - keep) + 1 := by omega
        simp [pruneKeep, ht, hle, List.filter_cons, List.countP_cons, hsucc, ih]
    · simp [pruneKeep, ht, List.filter_cons, List.countP_cons, ih]

theorem pruneKeep_filter_nontool (keep : Nat) :
    ∀ l : List Event,
      (pruneKeep keep l).filter (fun e => !isToolEvent e) =
        l.filter (fun e => !isToolEvent e) := by
  intro l
  induction l with
  | nil => rfl
  | cons e rest ih =>
    by_cases ht : isToolEvent e
    · by_cases hle : rest.countP isToolEvent + 1 ≤ keep
      · simp [pruneKeep, ht, hle, List.filter_cons, ih]
      · simp [pruneKeep, ht, hle, List.filter_cons, ih]
    · simp [pruneKeep, ht, List.filter_cons, ih]

theorem pruneToolEvents_enabled (events : List Event) (n : Nat) :
    pruneToolEvents events { enabled := true, keepToolEvents := n } =
      (pruneKeep n events,
        { pruned := events.length - (pruneKeep n events).length }) := by
  simp only [pruneToolEvents, Bool.not_true]
  rw [if_neg (show ¬(false = true) by decide)]
  rw [retain_eq_pruneKeep n events]

/-- C9: with an enabled policy keeping n tool events, prune_tool_events
leaves at most n tool events, namely exactly the trailing n tool events of
the input (all of them when fewer than n exist), keeps every non-tool
event in count and order, and reports the number of removed events as the
length difference; a disabled policy returns the list unchanged with a
pruned count of zero. -/
theorem prune_bound_spec (events : List Event) (n : Nat) :
    (pruneToolEvents events { enabled := true, keepToolEvents := n }).1.countP
        isToolEvent ≤ n ∧
    (pruneToolEvents events { enabled := true, keepToolEvents := n }).1.countP
        isToolEvent = min (events.countP isToolEvent) n ∧
    (pruneToolEvents events { enabled := true, keepToolEvents := n }).1.filter
        isToolEvent
      = (events.filter isToolEvent).drop (events.countP isToolEvent - n) ∧
    (pruneToolEvents events { enabled := true, keepToolEvents := n }).1.filter
        (fun e => !isToolEvent e)
      = events.filter (fun e => !isToolEvent e) ∧
    (pruneToolEvents events { enabled := true, keepToolEvents := n }).2.pruned
      = events.length
        - (pruneToolEvents events { enabled := true, keepToolEvents := n }).1.length ∧
    pruneToolEvents events { enabled := false, keepToolEvents := n }
      = (events, { pruned := 0 }) := by
  rw [pruneToolEvents_enabled]
  refine ⟨?_, ?_, ?_, ?_, rfl, rfl⟩
  · rw [pruneKeep_countP]
    omega
  · exact pruneKeep_countP n events
  · exact pruneKeep_filter_tool n events
  · exact pruneKeep_filter_nontool n events

end Forge
